import Mathlib

/-!
Verification development for the agent engine and tool-server supervisor of
the sirenko-project-bot repository.  Python source files are shallowly
embedded: pure functions become Lean functions, provider/tool/database
effects become explicit parameters (oracles) or event traces, Python strings
become `String` (or `List Char` where character-level slicing is proved
about), Python dicts become association lists with insertion-order update
semantics, and Python sets become duplicate-free lists.
-/

namespace SPB

/-- Role of a conversation message (the "role" key of a message dict). -/
inductive Role where
  | user
  | assistant
deriving DecidableEq

/-- One content block of a provider message: a text block, a tool_use block
(id, name, input — the input dict is kept opaque as its JSON text), or a
tool_result block (tool_use_id, content text). -/
inductive Block where
  | text : String → Block
  | toolUse : String → String → String → Block
  | toolResult : String → String → Block
deriving DecidableEq

/-- The "content" value of a message dict: either a plain string or a list
of content blocks, exactly the two shapes the Python code produces. -/
inductive Content where
  | str : String → Content
  | blocks : List Block → Content
deriving DecidableEq

/-- A message dict `{"role": ..., "content": ...}`. -/
structure Msg where
  role : Role
  content : Content
deriving DecidableEq

/-- Embeds `estimate_tokens` from src/utils/tokens.py: 0 for the empty
string, otherwise `max 1 (len(text) // 3)`. -/
def estimate_tokens (text : String) : Nat :=
  if text = "" then 0 else max 1 (text.length / 3)

/-- Token estimate contributed by one content block inside
`_estimate_messages_tokens` (src/agent/context.py): a dict with a "text"
key contributes `estimate_tokens(text)`; otherwise a dict with a "content"
key (a tool_result) contributes `estimate_tokens(str(content))`; a
tool_use dict has neither key and contributes nothing. -/
def estimateBlockTokens : Block → Nat
  | Block.text s => estimate_tokens s
  | Block.toolUse _ _ _ => 0
  | Block.toolResult _ c => estimate_tokens c

/-- Embeds `_estimate_messages_tokens` from src/agent/context.py: sum the
per-content estimates plus a 10-token overhead per message. -/
def estimateMessagesTokens (messages : List Msg) : Nat :=
  messages.foldl
    (fun total m =>
      total +
        (match m.content with
         | Content.str s => estimate_tokens s
         | Content.blocks bs => (bs.map estimateBlockTokens).sum) + 10)
    0

/-- The `while len(trimmed) > 2 and estimate(trimmed) > max_tokens:
trimmed.pop(0)` loop of `trim_messages` (src/agent/context.py). -/
def trimAux (maxTokens : Nat) : List Msg → List Msg
  | [] => []
  | m :: rest =>
    if (m :: rest).length > 2 ∧ estimateMessagesTokens (m :: rest) > maxTokens then
      trimAux maxTokens rest
    else
      m :: rest

/-- Embeds `trim_messages` from src/agent/context.py (default
`max_tokens = 150_000` is passed explicitly by callers of this model). -/
def trim_messages (messages : List Msg) (maxTokens : Nat) : List Msg :=
  if messages = [] then messages
  else if estimateMessagesTokens messages ≤ maxTokens then messages
  else trimAux maxTokens messages

/-- The truncation marker `"\n...[обрезано]"` appended by
`AgentCore._truncate_tool_result` (src/agent/core.py). -/
def truncMarker : List Char := "\n...[обрезано]".data

/-- Embeds `AgentCore._truncate_tool_result` (src/agent/core.py) at the
character level: texts within the limit pass through unchanged, longer
texts are cut to the first `maxChars` characters plus the marker. -/
def truncate_tool_result (text : List Char) (maxChars : Nat) : List Char :=
  if text.length ≤ maxChars then text
  else text.take maxChars ++ truncMarker

/-- String-typed wrapper of `truncate_tool_result` at the default limit of
2000 characters, used by the agent-loop embedding. -/
def truncateStr (s : String) : String :=
  String.mk (truncate_tool_result s.data 2000)

/-- SUMMARIZE_THRESHOLD from src/agent/summarizer.py. -/
def SUMMARIZE_THRESHOLD : Nat := 20

/-- KEEP_RECENT from src/agent/summarizer.py. -/
def KEEP_RECENT : Nat := 10

/-- The synthetic summary turn built by `maybe_summarize`
(src/agent/summarizer.py): a user message wrapping the summary text. -/
def summaryMessage (summary : String) : Msg :=
  ⟨Role.user,
   Content.str ("[Краткое резюме предыдущего разговора]\n" ++ summary ++
     "\n[Конец резюме, продолжаем разговор]")⟩

/-- The acknowledgement filler appended by `maybe_summarize` when the first
retained message has role user. -/
def ackFiller : Msg := ⟨Role.assistant, Content.str "Понял, продолжаем."⟩

/-- A filler message of `_fix_role_alternation`: role `r`, content
"Продолжай." for user fillers and "Хорошо." for assistant fillers. -/
def fillerMsg (r : Role) : Msg :=
  ⟨r, Content.str (if r = Role.user then "Продолжай." else "Хорошо.")⟩

/-- The opposite role, used to pick a filler role. -/
def oppRole : Role → Role
  | Role.user => Role.assistant
  | Role.assistant => Role.user

/-- The `for msg in messages[1:]` body of `_fix_role_alternation`
(src/agent/summarizer.py): walking with the last emitted message, insert a
filler of the opposite role before any message repeating the last role. -/
def altAux : Msg → List Msg → List Msg
  | _, [] => []
  | last, m :: rest =>
    if m.role = last.role then
      fillerMsg (oppRole m.role) :: m :: altAux m rest
    else
      m :: altAux m rest

/-- Embeds `_fix_role_alternation` from src/agent/summarizer.py: enforce
user/assistant alternation by filler insertion and prepend a user filler
when the first message is not from the user. -/
def fix_role_alternation (messages : List Msg) : List Msg :=
  match messages with
  | [] => []
  | m0 :: rest =>
    let fixed := m0 :: altAux m0 rest
    if m0.role ≠ Role.user then fillerMsg Role.user :: fixed else fixed

/-- Embeds `maybe_summarize` from src/agent/summarizer.py.  The single
cheap provider call (and the exception it may raise) is abstracted as the
`summaryResult` oracle: `none` models the `except` path that returns the
history unmodified, `some s` models a successful call returning summary
text `s`.  The database INSERT of the summary row has no influence on the
returned history and is omitted. -/
def maybe_summarize (summaryResult : Option String) (messages : List Msg) :
    List Msg :=
  if messages.length < SUMMARIZE_THRESHOLD then messages
  else
    match summaryResult with
    | none => messages
    | some summary =>
      fix_role_alternation
        ((match messages.drop (messages.length - KEEP_RECENT) with
          | r :: _ =>
            if r.role = Role.user then [summaryMessage summary, ackFiller]
            else [summaryMessage summary]
          | [] => [summaryMessage summary]) ++
          messages.drop (messages.length - KEEP_RECENT))

/-- Decidable check that adjacent messages never repeat a role. -/
def rolesAlternate : List Msg → Bool
  | [] => true
  | [_] => true
  | a :: b :: rest =>
    if a.role = b.role then false else rolesAlternate (b :: rest)

/-- The supported MCP server types (`McpServerType` in src/mcp/types.py). -/
inductive McpServerType where
  | gmail
  | calendar
  | telegram
  | whatsapp
  | slack
  | confluence
  | jira
deriving DecidableEq

/-- Dict iteration order of `MCP_TYPE_META` (insertion order of the
literal in src/mcp/types.py). -/
def serverTypes : List McpServerType :=
  [McpServerType.gmail, McpServerType.calendar, McpServerType.telegram,
   McpServerType.whatsapp, McpServerType.slack, McpServerType.confluence,
   McpServerType.jira]

/-- TOOL_PREFIX_MAP from src/mcp/types.py: the namespace string prepended
to a server type's native tool names. -/
def TOOL_PREFIX_MAP : McpServerType → String
  | McpServerType.gmail => ""
  | McpServerType.calendar => ""
  | McpServerType.telegram => "tg_"
  | McpServerType.whatsapp => "wa_"
  | McpServerType.slack => "slack_"
  | McpServerType.confluence => ""
  | McpServerType.jira => ""

/-- The `category` field of each `McpTypeMeta` entry in `MCP_TYPE_META`
(src/mcp/types.py). -/
def metaCategory : McpServerType → String
  | McpServerType.gmail => "gmail"
  | McpServerType.calendar => "calendar"
  | McpServerType.telegram => "telegram"
  | McpServerType.whatsapp => "whatsapp"
  | McpServerType.slack => "slack"
  | McpServerType.confluence => "confluence"
  | McpServerType.jira => "jira"

/-- The `all_prefixes` property (`tool_prefixes_read + tool_prefixes_write`)
of each `McpTypeMeta` entry in `MCP_TYPE_META` (src/mcp/types.py). -/
def metaAllPrefixes : McpServerType → List String
  | McpServerType.gmail =>
    ["search_emails", "read_email", "list_email_labels", "list_filters",
     "get_filter", "download_attachment", "draft_email", "send_email",
     "modify_email", "delete_email", "batch_modify_emails",
     "batch_delete_emails", "create_label", "update_label", "delete_label",
     "get_or_create_label", "create_filter", "delete_filter"]
  | McpServerType.calendar =>
    ["list-events", "search-events", "get-event", "list-calendars",
     "list-colors", "get-freebusy", "get-current-time", "create-event",
     "update-event", "delete-event", "respond-to-event", "manage-accounts"]
  | McpServerType.telegram =>
    ["get_", "list_", "search_", "resolve_", "export_contacts",
     "send_", "reply_", "edit_", "delete_", "forward_", "create_", "pin_",
     "unpin_", "mark_", "ban_", "unban_", "promote_", "demote_", "invite_",
     "leave_", "join_", "subscribe_", "import_", "block_", "unblock_",
     "save_", "clear_", "set_", "update_", "mute_", "unmute_", "archive_",
     "unarchive_", "add_", "remove_", "reorder_", "press_",
     "export_chat_invite"]
  | McpServerType.whatsapp =>
    ["search_contacts", "list_messages", "list_chats", "get_chat",
     "get_message_context", "search_messages", "send_message"]
  | McpServerType.slack =>
    ["conversations_history", "conversations_replies",
     "conversations_search_messages", "channels_list", "users_search",
     "usergroups_list", "usergroups_me", "attachment_get_data",
     "conversations_add_message", "reactions_add", "reactions_remove",
     "usergroups_create", "usergroups_update", "usergroups_users_update"]
  | McpServerType.confluence =>
    ["conf_get", "conf_post", "conf_put", "conf_patch", "conf_delete"]
  | McpServerType.jira =>
    ["jira_get", "jira_post", "jira_put", "jira_patch", "jira_delete"]

/-- The inner `for stype, m in MCP_TYPE_META.items()` lookup with `break`
used by `_build_tool_prefixes` and `_build_classification_prompt`
(src/agent/classifier.py): the first server type whose category matches. -/
def findMetaType (cat : String) : Option McpServerType :=
  serverTypes.find? (fun t => metaCategory t = cat)

/-- The namespaced tool-name prefixes contributed by one category in
`_build_tool_prefixes` (src/agent/classifier.py): the first matching
type's `all_prefixes`, each with the type's namespace string prepended
(`ns_prefix + p if ns_prefix else p`, and `"" ++ p = p`). -/
def categoryPrefixes (cat : String) : List String :=
  match findMetaType cat with
  | some t => (metaAllPrefixes t).map (fun p => TOOL_PREFIX_MAP t ++ p)
  | none => []

/-- Embeds `_build_tool_prefixes` from src/agent/classifier.py. -/
def buildToolPrefixes (categories : List String) : List String :=
  categories.flatMap categoryPrefixes

/-- The JSON object a successful classifier provider call parses into:
`data.get("needs_tools", True)`, `data.get("categories", [])` and
`data.get("is_simple", False)`, with `none` for an absent key. -/
structure ParsedClassification where
  needsTools : Option Bool
  categories : List String
  isSimple : Option Bool
deriving DecidableEq

/-- The `RequestClassification` dataclass of src/agent/classifier.py. -/
structure RequestClassification where
  needsTools : Bool
  categories : List String
  isSimple : Bool
deriving DecidableEq

/-- Embeds `classify_request` from src/agent/classifier.py.  The Haiku
provider call together with every failure caught by the `except` block
(API error, missing text block, JSON parse error, non-dict payload) is
abstracted as the `providerResult` oracle: `none` models any such failure
and yields the fail-safe classification; `some d` models a successfully
parsed JSON object `d`, whose categories are filtered down to
`availableCategories`. -/
def classify_request (availableCategories : List String)
    (providerResult : Option ParsedClassification) : RequestClassification :=
  match providerResult with
  | none =>
    { needsTools := true, categories := availableCategories, isSimple := false }
  | some d =>
    { needsTools := d.needsTools.getD true
      categories := d.categories.filter (fun c => c ∈ availableCategories)
      isSimple := d.isSimple.getD false }

/-- MAX_TOOL_ITERATIONS from src/agent/core.py. -/
def MAX_TOOL_ITERATIONS : Nat := 15

/-- MAX_TOKENS_BUDGET from src/agent/core.py. -/
def MAX_TOKENS_BUDGET : Nat := 50000

/-- Stop reason of a provider response: "end_turn", "tool_use", or any
other value (e.g. "max_tokens"). -/
inductive StopReason where
  | endTurn
  | toolUse
  | other
deriving DecidableEq

/-- The usage record of a provider response. -/
structure Usage where
  inputTokens : Nat
  outputTokens : Nat
deriving DecidableEq

/-- One provider (Claude Messages API) response, as consumed by
`AgentCore.run`: stop reason, content blocks, token usage. -/
structure ProviderResponse where
  stopReason : StopReason
  content : List Block
  usage : Usage
deriving DecidableEq

/-- Observable side effects of `AgentCore.run`, in program order:
a provider call (`_call_claude`; the flag records whether a tools list was
passed), an MCP tool execution (`self.mcp.call_tool`), a `log_tool_call`
database write, a `save_message` write, and a `track_cost` write. -/
inductive Event where
  | apiCall : Bool → Event
  | toolExec : String → String → Event
  | logToolCall : String → Event
  | persistMessage : Role → Event
  | persistCost : Nat → Nat → Event
deriving DecidableEq

/-- The `PendingApproval` dataclass of src/agent/core.py. -/
structure PendingApproval where
  toolName : String
  toolInput : String
  toolUseId : String
  messagesSnapshot : List Msg
deriving DecidableEq

/-- The `AgentResponse` dataclass of src/agent/core.py (the fields the
loop computes; `model` and `cache_stats` are constant strings and cache
counters not relevant to the claims). -/
structure AgentResponse where
  text : String
  toolCallsCount : Nat
  tokensInput : Nat
  tokensOutput : Nat
  pendingApproval : Option PendingApproval
deriving DecidableEq

/-- Embeds `AgentCore._serialize_content`: keep text and tool_use blocks,
drop anything else. -/
def serializeContent (content : List Block) : List Block :=
  content.filterMap (fun b =>
    match b with
    | Block.text s => some (Block.text s)
    | Block.toolUse id name input => some (Block.toolUse id name input)
    | Block.toolResult _ _ => none)

/-- Embeds `AgentCore._extract_text`: join the text blocks with a newline,
or return the empty string when there are none. -/
def extractText (content : List Block) : String :=
  let parts := content.filterMap (fun b =>
    match b with
    | Block.text s => some s
    | _ => none)
  if parts = [] then "" else String.intercalate "\n" parts

/-- Python `a or b` on strings: the default when `a` is empty. -/
def orDefault (s dflt : String) : String :=
  if s = "" then dflt else s

/-- The `tool_blocks = [b for b in response.content if b.type == "tool_use"]`
filter, as (id, name, input) triples. -/
def toolUseTriples : List Block → List (String × String × String)
  | [] => []
  | Block.toolUse id name input :: rest => (id, name, input) :: toolUseTriples rest
  | _ :: rest => toolUseTriples rest

/-- Outcome of processing one batch of requested tool calls: either the
whole batch executed (events, updated tool_calls_count, tool_result
blocks), or a gated tool was hit (its name, input and id, plus the events
and count accrued for the earlier tools of the batch). -/
inductive BatchOutcome where
  | completed : List Event → Nat → List Block → BatchOutcome
  | gated : String → String → String → List Event → Nat → BatchOutcome
deriving DecidableEq

/-- The `for tool_block in tool_blocks` body of `AgentCore.run`
(src/agent/core.py lines 224-272): in request order, return the gating
outcome at the first tool whose name is in the approval list, otherwise
execute the tool (`execTool` models `self.mcp.call_tool`, whose result
text covers both the success value and the `"Ошибка: ..."` text built
from a caught exception), log it, and collect the truncated tool_result
block. -/
def processToolBlocks (execTool : String → String → String)
    (approvalList : List String) (toolCallsCount : Nat) :
    List (String × String × String) → BatchOutcome
  | [] => BatchOutcome.completed [] toolCallsCount []
  | (id, name, input) :: rest =>
    if name ∈ approvalList then
      BatchOutcome.gated name input id [] toolCallsCount
    else
      let result := execTool name input
      match processToolBlocks execTool approvalList (toolCallsCount + 1) rest with
      | BatchOutcome.completed evs cnt results =>
        BatchOutcome.completed
          (Event.toolExec name input :: Event.logToolCall name :: evs) cnt
          (Block.toolResult id (truncateStr result) :: results)
      | BatchOutcome.gated n i tid evs cnt =>
        BatchOutcome.gated n i tid
          (Event.toolExec name input :: Event.logToolCall name :: evs) cnt

/-- The step-5 persistence of `AgentCore.run` (save user turn, save
assistant turn, track cost). -/
def persistTail (totalIn totalOut : Nat) : List Event :=
  [Event.persistMessage Role.user, Event.persistMessage Role.assistant,
   Event.persistCost totalIn totalOut]

/-- Package a terminating (non-gated) loop exit: the response plus the
events of the exit branch followed by the step-5 persistence writes. -/
def finishRun (text : String) (totalIn totalOut toolCallsCount : Nat)
    (branchEvs : List Event) : AgentResponse × List Event :=
  (⟨text, toolCallsCount, totalIn, totalOut, none⟩,
   branchEvs ++ persistTail totalIn totalOut)

/-- Embeds the `for iteration in range(MAX_TOOL_ITERATIONS)` loop of
`AgentCore.run` (src/agent/core.py lines 182-299) together with the
step-5 persistence.  The provider is abstracted as the `script` oracle
(the response of the i-th `_call_claude` invocation of this run), tool
execution as `execTool`, and the active phase policy's approval-required
list as `approvalList`.  `hasTools` records whether `anthropic_tools` is
nonempty (line 205 passes `tools=None` when it is empty); budget and
round-limit finalization calls always pass `tools=None`.  `fuel` is the
number of loop iterations still allowed (entered at MAX_TOOL_ITERATIONS;
`fuel = 0` is the for-else branch).  Returns the `AgentResponse` and the
trace of events emitted from this point on. -/
def runLoop (script : Nat → ProviderResponse)
    (execTool : String → String → String) (approvalList : List String)
    (hasTools : Bool) :
    Nat → Nat → List Msg → Nat → Nat → Nat → AgentResponse × List Event
  | 0, callIdx, _, totalIn, totalOut, toolCallsCount =>
    let resp := script callIdx
    finishRun
      (orDefault (extractText resp.content) "Достигнут лимит итераций.")
      (totalIn + resp.usage.inputTokens) (totalOut + resp.usage.outputTokens)
      toolCallsCount [Event.apiCall false]
  | fuel + 1, callIdx, messages, totalIn, totalOut, toolCallsCount =>
    if totalIn + totalOut > MAX_TOKENS_BUDGET then
      let resp := script callIdx
      finishRun
        (orDefault (extractText resp.content)
          "Бюджет токенов исчерпан. Вот что удалось выяснить.")
        (totalIn + resp.usage.inputTokens) (totalOut + resp.usage.outputTokens)
        toolCallsCount [Event.apiCall false]
    else
      let resp := script callIdx
      let totalIn2 := totalIn + resp.usage.inputTokens
      let totalOut2 := totalOut + resp.usage.outputTokens
      match resp.stopReason with
      | StopReason.endTurn =>
        finishRun (extractText resp.content) totalIn2 totalOut2 toolCallsCount
          [Event.apiCall hasTools]
      | StopReason.toolUse =>
        let messages1 :=
          messages ++ [⟨Role.assistant, Content.blocks (serializeContent resp.content)⟩]
        match processToolBlocks execTool approvalList toolCallsCount
            (toolUseTriples resp.content) with
        | BatchOutcome.gated name input id evs cnt =>
          (⟨extractText resp.content, cnt, totalIn2, totalOut2,
             some ⟨name, input, id, messages1⟩⟩,
           Event.apiCall hasTools :: evs ++
             [Event.persistMessage Role.user, Event.persistCost totalIn2 totalOut2])
        | BatchOutcome.completed evs cnt results =>
          let messages2 :=
            trim_messages (messages1 ++ [⟨Role.user, Content.blocks results⟩]) 150000
          let next :=
            runLoop script execTool approvalList hasTools fuel (callIdx + 1)
              messages2 totalIn2 totalOut2 cnt
          (next.1, Event.apiCall hasTools :: evs ++ next.2)
      | StopReason.other =>
        finishRun (extractText resp.content) totalIn2 totalOut2 toolCallsCount
          [Event.apiCall hasTools]

/-- One full `AgentCore.run` tool-use loop, entered with
MAX_TOOL_ITERATIONS rounds available and zeroed per-run counters. -/
def runAgent (script : Nat → ProviderResponse)
    (execTool : String → String → String) (approvalList : List String)
    (hasTools : Bool) (messages0 : List Msg) : AgentResponse × List Event :=
  runLoop script execTool approvalList hasTools MAX_TOOL_ITERATIONS 0
    messages0 0 0 0

/-- Status column of an approval_requests row. -/
inductive ApprovalStatus where
  | pending
  | approved
  | rejected
deriving DecidableEq

/-- An approval_requests row (src/db/models.py): the columns the handlers
read.  Timestamps are omitted; `context` models the stored
conversation_context snapshot. -/
structure ApprovalRow where
  status : ApprovalStatus
  toolName : String
  toolInput : String
  context : List Msg
deriving DecidableEq

/-- The approval_requests table: rows keyed by their integer primary key. -/
abbrev ApprovalDb := List (Nat × ApprovalRow)

/-- The `UPDATE approval_requests SET status = ? WHERE id = ? AND
status = 'pending'` statement of `resolve_approval` (src/db/queries.py):
the updated table and the SQL rowcount. -/
def resolveUpdate (db : ApprovalDb) (approvalId : Nat)
    (status : ApprovalStatus) : ApprovalDb × Nat :=
  db.foldr
    (fun p acc =>
      if p.1 = approvalId ∧ p.2.status = ApprovalStatus.pending then
        ((p.1, { p.2 with status := status }) :: acc.1, acc.2 + 1)
      else
        (p :: acc.1, acc.2))
    ([], 0)

/-- Embeds `resolve_approval` from src/db/queries.py: the conditional
update guarded by the current status, returning `rowcount > 0`. -/
def resolve_approval (db : ApprovalDb) (approvalId : Nat)
    (status : ApprovalStatus) : ApprovalDb × Bool :=
  let r := resolveUpdate db approvalId status
  (r.1, decide (0 < r.2))

/-- Embeds `get_pending_approval` from src/db/queries.py: the first row
with this id whose status is still 'pending'. -/
def get_pending_approval (db : ApprovalDb) (approvalId : Nat) :
    Option ApprovalRow :=
  (db.find? (fun p =>
    p.1 = approvalId ∧ p.2.status = ApprovalStatus.pending)).map (fun p => p.2)

/-- Embeds the approval-resolution skeleton of `on_approve`
(src/bot/handlers/approvals.py): look up the pending request — answering
"not found or already handled" and performing no execution when there is
none — otherwise resolve it to 'approved' and hand the restored
`PendingApproval` to `AgentCore.execute_approved_tool`.  The returned
flag records whether the gated tool was executed
(`execute_approved_tool` invokes `self.mcp.call_tool` unconditionally). -/
def on_approve (db : ApprovalDb) (approvalId : Nat) : ApprovalDb × Bool :=
  match get_pending_approval db approvalId with
  | none => (db, false)
  | some _ =>
    ((resolve_approval db approvalId ApprovalStatus.approved).1, true)

/-- Embeds the skeleton of `on_reject` (src/bot/handlers/approvals.py):
look up the pending request; when there is none answer "not found or
already handled", otherwise resolve it to 'rejected'.  No path executes
the tool; the flag records tool execution and is always false. -/
def on_reject (db : ApprovalDb) (approvalId : Nat) : ApprovalDb × Bool :=
  match get_pending_approval db approvalId with
  | none => (db, false)
  | some _ =>
    ((resolve_approval db approvalId ApprovalStatus.rejected).1, false)

/-- Tool names handled by the registry, at the character level (so that
namespace concatenation and stripping are provable list operations). -/
abbrev TName := List Char

/-- A tool descriptor as stored in the registry catalog: its (possibly
namespaced) name plus the rest of the definition dict, kept opaque. -/
structure Tool where
  name : TName
  meta : String
deriving DecidableEq

/-- An `MCPClient` as the registry and manager see it: its `name` and the
tool definitions returned by `get_tools()`. -/
structure Client where
  name : String
  tools : List Tool
deriving DecidableEq

/-- Lookup in a Python dict modelled as an insertion-ordered association
list. -/
def alistLookup {K V : Type} [DecidableEq K] (m : List (K × V)) (k : K) :
    Option V :=
  (m.find? (fun p => p.1 = k)).map (fun p => p.2)

/-- Python dict assignment `m[k] = v`: replace the binding in place when
the key exists, otherwise append it. -/
def alistInsert {K V : Type} [DecidableEq K] (m : List (K × V)) (k : K)
    (v : V) : List (K × V) :=
  if (alistLookup m k).isSome then
    m.map (fun p => if p.1 = k then (k, v) else p)
  else
    m ++ [(k, v)]

/-- Python dict `m.pop(k, None)`: drop the binding when present. -/
def alistErase {K V : Type} [DecidableEq K] (m : List (K × V)) (k : K) :
    List (K × V) :=
  m.filter (fun p => p.1 ≠ k)

/-- The `ToolRegistry` state (src/mcp/registry.py): `_tool_to_client`,
`_all_tools`, and `_instances` (instance id to (client, prefix string,
original tool names)). -/
structure Registry where
  toolToClient : List (TName × Client)
  allTools : List Tool
  instances : List (String × (Client × TName × List TName))
deriving DecidableEq

/-- A freshly constructed `ToolRegistry`. -/
def emptyRegistry : Registry := ⟨[], [], []⟩

/-- One iteration of the `for tool in client.get_tools()` loop of
`ToolRegistry.register_instance`: compute the namespaced name
(`prefix + orig if prefix else orig`, and `[] ++ n = n`); when it is
already registered, drop the stale descriptor from the catalog; then map
the name to this client and append the renamed descriptor. -/
def registerTool (st : Registry) (client : Client) (pref : TName)
    (tool : Tool) : Registry :=
  let prefixedName := pref ++ tool.name
  let st1 :=
    if (alistLookup st.toolToClient prefixedName).isSome then
      { st with allTools := st.allTools.filter (fun t => t.name ≠ prefixedName) }
    else st
  { st1 with
      toolToClient := alistInsert st1.toolToClient prefixedName client
      allTools := st1.allTools ++ [{ tool with name := prefixedName }] }

/-- Embeds `ToolRegistry.register_instance` (src/mcp/registry.py): process
every declared tool, then record the instance entry with the original
(unprefixed) names. -/
def register_instance (st : Registry) (instanceId : String) (client : Client)
    (pref : TName) : Registry :=
  let st1 := client.tools.foldl (fun acc tool => registerTool acc client pref tool) st
  { st1 with
      instances :=
        alistInsert st1.instances instanceId
          (client, pref, client.tools.map Tool.name) }

/-- Embeds `ToolRegistry.unregister_instance` (src/mcp/registry.py): pop
the instance entry and remove all of its namespaced names from the
routing dict and the catalog. -/
def unregister_instance (st : Registry) (instanceId : String) : Registry :=
  match alistLookup st.instances instanceId with
  | none => st
  | some entry =>
    let prefixedNames := entry.2.2.map (fun n => entry.2.1 ++ n)
    { toolToClient := st.toolToClient.filter (fun p => p.1 ∉ prefixedNames)
      allTools := st.allTools.filter (fun t => t.name ∉ prefixedNames)
      instances := alistErase st.instances instanceId }

/-- Embeds `ToolRegistry.get_client_for_tool`. -/
def get_client_for_tool (st : Registry) (toolName : TName) : Option Client :=
  alistLookup st.toolToClient toolName

/-- The `for _iid, (_client, prefix, original_names) in _instances.items()`
scan of `ToolRegistry.get_original_tool_name`: skip unprefixed instances;
when the name starts with an instance's prefix and the stripped remainder
is one of its original names, return the remainder; fall through
otherwise, and finally return the name unchanged. -/
def goOriginalName (prefixedName : TName) :
    List (String × (Client × TName × List TName)) → TName
  | [] => prefixedName
  | entry :: rest =>
    if entry.2.2.1 = [] then goOriginalName prefixedName rest
    else if entry.2.2.1.isPrefixOf prefixedName then
      if prefixedName.drop entry.2.2.1.length ∈ entry.2.2.2 then
        prefixedName.drop entry.2.2.1.length
      else goOriginalName prefixedName rest
    else goOriginalName prefixedName rest

/-- Embeds `ToolRegistry.get_original_tool_name` (src/mcp/registry.py). -/
def get_original_tool_name (st : Registry) (prefixedName : TName) : TName :=
  goOriginalName prefixedName st.instances

/-- One mutating registry call, for reasoning about arbitrary call
sequences. -/
inductive RegistryOp where
  | reg : String → Client → TName → RegistryOp
  | unreg : String → RegistryOp

/-- Apply one registry call. -/
def applyOp (st : Registry) : RegistryOp → Registry
  | RegistryOp.reg iid c p => register_instance st iid c p
  | RegistryOp.unreg iid => unregister_instance st iid

/-- The registry state after an arbitrary sequence of `register_instance`
and `unregister_instance` calls on a fresh registry. -/
def applyOps (ops : List RegistryOp) : Registry :=
  ops.foldl applyOp emptyRegistry

/-- The slice of `McpInstanceConfig` the manager model needs: the server
type (which determines the namespace prefix). -/
structure ServerConfig where
  type : McpServerType
deriving DecidableEq

/-- The collaborators of `MCPManager`: the settings tables
(`projects[pid].mcp_services` and `global_config.mcp_instances`) and the
outcome of `MCPClient.connect` for an instance id (`none` models the
exception caught and logged by `_start_instance`, `some tools` a
successful handshake declaring `tools`). -/
structure ManagerDeps where
  projects : String → Option (List String)
  mcpInstances : String → Option ServerConfig
  connect : String → Option (List Tool)

/-- The `MCPManager` state (src/mcp/manager.py): `self.instances`, the
registry, `_instance_refcount` (sets modelled as duplicate-free lists),
`_orphaned_stacks` (by the owning instance id), plus a `spawned` trace
recording every process spawn performed by `_start_instance`. -/
structure ManagerState where
  instances : List (String × Client)
  registry : Registry
  refcount : List (String × List String)
  orphaned : List String
  spawned : List String
deriving DecidableEq

/-- A freshly constructed `MCPManager`. -/
def initialManagerState : ManagerState := ⟨[], emptyRegistry, [], [], []⟩

/-- The `_instance_refcount.setdefault(instance_id, set()).add(project_id)`
idiom. -/
def refAdd (m : List (String × List String)) (iid pid : String) :
    List (String × List String) :=
  match alistLookup m iid with
  | some refs => alistInsert m iid (if pid ∈ refs then refs else refs ++ [pid])
  | none => m ++ [(iid, [pid])]

/-- Embeds `MCPManager._start_instance` (src/mcp/manager.py): connect a
fresh client (any exception leaves the state unchanged), register its
tools under the type's namespace prefix, record the client, and log the
spawn. -/
def startInstance (deps : ManagerDeps) (st : ManagerState)
    (instanceId : String) (config : ServerConfig) : ManagerState :=
  match deps.connect instanceId with
  | none => st
  | some tools =>
    let client : Client := ⟨instanceId, tools⟩
    { st with
        registry :=
          register_instance st.registry instanceId client
            (TOOL_PREFIX_MAP config.type).data
        instances := alistInsert st.instances instanceId client
        spawned := st.spawned ++ [instanceId] }

/-- One iteration of the `for instance_id in project.mcp_services` loop of
`MCPManager.start_project`: skip unknown instance ids, add the project's
reference, and start the instance only when it is not already running. -/
def startProjectStep (deps : ManagerDeps) (projectId : String)
    (st : ManagerState) (instanceId : String) : ManagerState :=
  match deps.mcpInstances instanceId with
  | none => st
  | some config =>
    if (alistLookup st.instances instanceId).isSome then
      { st with refcount := refAdd st.refcount instanceId projectId }
    else
      startInstance deps
        { st with refcount := refAdd st.refcount instanceId projectId }
        instanceId config

/-- Embeds `MCPManager.start_project` (src/mcp/manager.py); `services` is
the `mcp_services` list of the `ProjectConfig` argument.  The
`async with self._lock` serialization is implicit in the sequential
model. -/
def start_project (deps : ManagerDeps) (st : ManagerState)
    (projectId : String) (services : List String) : ManagerState :=
  services.foldl (startProjectStep deps projectId) st

/-- One iteration of the `for instance_id in instance_ids` loop of
`MCPManager.stop_project`: discard the project's reference; when the
reference set becomes empty, drop the refcount entry, pop the client,
unregister its tools and orphan its exit stack (the teardown of lines
102-106); otherwise keep the instance running. -/
def stopProjectStep (st : ManagerState) (projectId : String)
    (instanceId : String) : ManagerState :=
  match alistLookup st.refcount instanceId with
  | none => st
  | some refs =>
    if refs = [] then st
    else if refs.erase projectId = [] then
      match alistLookup st.instances instanceId with
      | some _ =>
        { st with
            refcount := alistErase st.refcount instanceId
            instances := alistErase st.instances instanceId
            registry := unregister_instance st.registry instanceId
            orphaned := st.orphaned ++ [instanceId] }
      | none =>
        { st with refcount := alistErase st.refcount instanceId }
    else
      { st with
          refcount := alistInsert st.refcount instanceId
            (refs.erase projectId) }

/-- Embeds `MCPManager.stop_project` (src/mcp/manager.py): look the
project up in the settings (an unknown project contributes no instance
ids) and release each of its instance references. -/
def stop_project (deps : ManagerDeps) (st : ManagerState)
    (projectId : String) : ManagerState :=
  ((deps.projects projectId).getD []).foldl
    (fun acc iid => stopProjectStep acc projectId iid) st

/-- The events accrued while processing a batch of requested tools. -/
def batchEvents : BatchOutcome → List Event
  | BatchOutcome.completed evs _ _ => evs
  | BatchOutcome.gated _ _ _ evs _ => evs

/-- Whether an event is a provider call. -/
def isApiCallEvent : Event → Bool
  | Event.apiCall _ => true
  | _ => false

/-- The namespace strings the program can ever register instances with:
`MCPManager._start_instance` always passes
`TOOL_PREFIX_MAP.get(config.type, "")`, so every registered prefix is a
value of `TOOL_PREFIX_MAP`. -/
def toolPrefixValues : List TName :=
  serverTypes.map (fun t => (TOOL_PREFIX_MAP t).data)

/-- The registry's structural invariant: the catalog never holds two
descriptors with the same name, and every catalogued name is routable
through `_tool_to_client`. -/
def registryInv (st : Registry) : Prop :=
  (st.allTools.map Tool.name).Nodup ∧
  ∀ t ∈ st.allTools, (alistLookup st.toolToClient t.name).isSome

/-- Number of catalog descriptors carrying a given namespaced name. -/
def countName (st : Registry) (pname : TName) : Nat :=
  (st.allTools.filter (fun d => d.name = pname)).length

/-- A fully released instance, as observed on the manager state: no
client entry, no reference-count entry, no registry instance entry, the
exit stack orphaned for teardown, and none of its namespaced tool names
routable or catalogued any more. -/
def tornState (st : ManagerState) (iid : String) (pnames : List TName) :
    Prop :=
  alistLookup st.instances iid = none ∧
  alistLookup st.refcount iid = none ∧
  alistLookup st.registry.instances iid = none ∧
  iid ∈ st.orphaned ∧
  (∀ n ∈ pnames, alistLookup st.registry.toolToClient n = none) ∧
  (∀ t ∈ st.registry.allTools, t.name ∉ pnames)

/-- Concrete alternating conversation of `n` turns (user on even indices),
used to evaluate the summarizer claims. -/
def altMsgs (n : Nat) : List Msg :=
  (List.range n).map (fun i =>
    if i % 2 = 0 then ⟨Role.user, Content.str "q"⟩
    else ⟨Role.assistant, Content.str "a"⟩)

/-- Concrete message whose content estimates to 33 tokens (43 with the
per-message overhead), used to evaluate the trimming claim. -/
def exMsgBig : Msg := ⟨Role.user, Content.str (String.mk (List.replicate 99 'x'))⟩

/-- Concrete tool declared by the example Telegram client. -/
def exToolSend : Tool := ⟨"send_message".data, "schema"⟩

/-- Concrete client used to evaluate the registry claims. -/
def exClientTg : Client := ⟨"tg_main", [exToolSend]⟩

/-- Registry with the example Telegram client registered under "tg_". -/
def exRegistryTg : Registry :=
  register_instance emptyRegistry "tg_main" exClientTg "tg_".data

/-- Concrete manager collaborators: two projects sharing one Telegram
instance that connects successfully. -/
def exDeps : ManagerDeps :=
  { projects := fun p => if p = "p1" ∨ p = "p2" then some ["tg_main"] else none
    mcpInstances := fun i =>
      if i = "tg_main" then some ⟨McpServerType.telegram⟩ else none
    connect := fun _ => some [exToolSend] }

/-- Manager state after starting the shared instance for project p1. -/
def exStarted : ManagerState :=
  start_project exDeps initialManagerState "p1" ["tg_main"]

/-- Concrete approval table holding one pending request. -/
def exDbPending : ApprovalDb :=
  [(1, ⟨ApprovalStatus.pending, "send_email", "args", []⟩)]

/-- Concrete approval table holding one already-approved request. -/
def exDbResolved : ApprovalDb :=
  [(1, ⟨ApprovalStatus.approved, "send_email", "args", []⟩)]

/-- Concrete provider script: the first call requests three tools (the
second of which is approval-gated), any later call ends the turn. -/
def exScriptGated : Nat → ProviderResponse := fun i =>
  if i = 0 then
    ⟨StopReason.toolUse,
     [Block.text "calling", Block.toolUse "id1" "read_email" "argsA",
      Block.toolUse "id2" "send_email" "argsB",
      Block.toolUse "id3" "read_email" "argsC"],
     ⟨100, 50⟩⟩
  else ⟨StopReason.endTurn, [Block.text "done"], ⟨10, 5⟩⟩

/-- Concrete provider script whose single-call usage blows the budget. -/
def exScriptBudget : Nat → ProviderResponse := fun _ =>
  ⟨StopReason.toolUse, [Block.toolUse "idX" "toolX" "argsX"], ⟨60000, 1⟩⟩

/-- Concrete tool executor for the loop witnesses. -/
def exExec : String → String → String := fun _ _ => "ok"

/-- C8: a tool-result text of at most `maxChars` characters is forwarded
unchanged; a longer text is forwarded as exactly its first `maxChars`
characters followed by the truncation marker (so a 5000-character result
under the 2000-character limit becomes 2000 characters plus the marker,
as the witness instantiates). -/
theorem truncate_tool_result_spec (text : List Char) (maxChars : Nat) :
    (text.length ≤ maxChars → truncate_tool_result text maxChars = text) ∧
    (maxChars < text.length →
      truncate_tool_result text maxChars = text.take maxChars ++ truncMarker ∧
      (truncate_tool_result text maxChars).length =
        maxChars + truncMarker.length) := by
  constructor
  · intro h
    simp [truncate_tool_result, h]
  · intro h
    have hne : ¬ text.length ≤ maxChars := by omega
    refine ⟨by simp [truncate_tool_result, hne], ?_⟩
    simp [truncate_tool_result, hne, List.length_take]
    omega

/-- C8 witness: a 5000-character result with the 2000-character limit is
forwarded as exactly 2000 characters plus the marker (2014 characters in
total), while a 2-character result passes through unchanged. -/
theorem truncate_tool_result_spec_witness :
    truncate_tool_result (List.replicate 5000 'a') 2000 =
      List.replicate 2000 'a' ++ truncMarker ∧
    (truncate_tool_result (List.replicate 5000 'a') 2000).length = 2014 ∧
    truncate_tool_result "hi".data 2000 = "hi".data := by
  have h :=
    (truncate_tool_result_spec (List.replicate 5000 'a') 2000).2
      (by rw [List.length_replicate]; omega)
  refine ⟨?_, ?_, ?_⟩
  · rw [h.1, List.take_replicate]; norm_num
  · rw [h.2]; decide
  · exact (truncate_tool_result_spec "hi".data 2000).1 (by decide)

/-- Specification of the pop-from-the-front loop of `trim_messages`: the
result is the suffix obtained by dropping oldest turns one at a time
while more than two turns remain and the estimate is over budget. -/
theorem trimAux_spec (maxT : Nat) :
    ∀ l : List Msg,
      ∃ k, trimAux maxT l = l.drop k ∧
        (∀ j < k, 2 < (l.drop j).length ∧
          maxT < estimateMessagesTokens (l.drop j)) ∧
        (estimateMessagesTokens (trimAux maxT l) ≤ maxT ∨
          (trimAux maxT l).length ≤ 2) ∧
        min l.length 2 ≤ (trimAux maxT l).length := by
  intro l
  induction l with
  | nil =>
    refine ⟨0, rfl, ?_, ?_, ?_⟩
    · intro j hj; omega
    · left; simp [trimAux, estimateMessagesTokens]
    · simp [trimAux]
  | cons m rest ih =>
    by_cases h : (m :: rest).length > 2 ∧
        estimateMessagesTokens (m :: rest) > maxT
    · have hstep : trimAux maxT (m :: rest) = trimAux maxT rest := by
        rw [trimAux, if_pos h]
      obtain ⟨k, hk, hmin, hstop, hlen⟩ := ih
      refine ⟨k + 1, ?_, ?_, ?_, ?_⟩
      · rw [hstep, List.drop_succ_cons, hk]
      · intro j hj
        match j with
        | 0 => simpa using h
        | j' + 1 =>
          rw [List.drop_succ_cons]
          exact hmin j' (by omega)
      · rw [hstep]; exact hstop
      · rw [hstep]
        have hr : 2 ≤ rest.length := by
          have := h.1; simp at this; omega
        simp only [List.length_cons]
        omega
    · refine ⟨0, ?_, ?_, ?_, ?_⟩
      · rw [trimAux, if_neg h]; rfl
      · intro j hj; omega
      · rw [trimAux, if_neg h]
        rcases Nat.lt_or_ge 2 (m :: rest).length with h2 | h2
        · left
          rcases Nat.lt_or_ge maxT (estimateMessagesTokens (m :: rest)) with h3 | h3
          · exact absurd ⟨h2, h3⟩ h
          · exact h3
        · right; exact h2
      · rw [trimAux, if_neg h]
        exact Nat.min_le_left _ _

/-- C7: `trim_messages` returns its input unchanged whenever the estimated
token total is within the limit; when it is over the limit, the result is
the contiguous suffix obtained by dropping turns from the oldest end one
at a time until the estimate is within budget (every dropped point was
still over budget with more than two turns left), the process stops at
the two-newest-turns floor even if still over budget, and the result
keeps at least `min (length, 2)` turns — the newest two are never
dropped. -/
theorem trim_messages_spec (messages : List Msg) (maxTokens : Nat) :
    (estimateMessagesTokens messages ≤ maxTokens →
      trim_messages messages maxTokens = messages) ∧
    (maxTokens < estimateMessagesTokens messages →
      ∃ k, trim_messages messages maxTokens = messages.drop k ∧
        (∀ j < k, 2 < (messages.drop j).length ∧
          maxTokens < estimateMessagesTokens (messages.drop j)) ∧
        (estimateMessagesTokens (trim_messages messages maxTokens) ≤ maxTokens ∨
          (trim_messages messages maxTokens).length ≤ 2) ∧
        min messages.length 2 ≤ (trim_messages messages maxTokens).length) := by
  constructor
  · intro h
    by_cases hne : messages = []
    · simp [trim_messages, hne]
    · simp [trim_messages, hne, h]
  · intro h
    have hne : messages ≠ [] := by
      intro e
      rw [e] at h
      simp [estimateMessagesTokens] at h
    have heq : trim_messages messages maxTokens = trimAux maxTokens messages := by
      rw [trim_messages, if_neg hne, if_neg (by omega)]
    rw [heq]
    exact trimAux_spec maxTokens messages

/-- C7 witness: five 99-character messages (43 estimated tokens each)
against a 100-token limit are trimmed from the oldest end down to the
two newest turns, and the same list is returned unchanged against a
1000-token limit. -/
theorem trim_messages_spec_witness :
    trim_messages (List.replicate 5 exMsgBig) 1000 =
      List.replicate 5 exMsgBig ∧
    (∃ k, trim_messages (List.replicate 5 exMsgBig) 100 =
        (List.replicate 5 exMsgBig).drop k ∧
      (∀ j < k, 2 < ((List.replicate 5 exMsgBig).drop j).length ∧
        100 < estimateMessagesTokens ((List.replicate 5 exMsgBig).drop j)) ∧
      (estimateMessagesTokens (trim_messages (List.replicate 5 exMsgBig) 100) ≤ 100 ∨
        (trim_messages (List.replicate 5 exMsgBig) 100).length ≤ 2) ∧
      min (List.replicate 5 exMsgBig).length 2 ≤
        (trim_messages (List.replicate 5 exMsgBig) 100).length) :=
  ⟨(trim_messages_spec (List.replicate 5 exMsgBig) 1000).1 (by decide),
   (trim_messages_spec (List.replicate 5 exMsgBig) 100).2 (by decide)⟩

/-- Alternation of the tail of an alternating list. -/
theorem rolesAlternate_tail (m : Msg) (l : List Msg)
    (h : rolesAlternate (m :: l) = true) : rolesAlternate l = true := by
  cases l with
  | nil => simp [rolesAlternate]
  | cons b rest =>
    by_cases hr : m.role = b.role
    · simp [rolesAlternate, hr] at h
    · simpa [rolesAlternate, hr] using h

/-- Alternation survives dropping a front segment. -/
theorem rolesAlternate_drop (n : Nat) (l : List Msg)
    (h : rolesAlternate l = true) : rolesAlternate (l.drop n) = true := by
  induction n generalizing l with
  | zero => exact h
  | succ n ih =>
    cases l with
    | nil => simp [rolesAlternate]
    | cons m rest =>
      rw [List.drop_succ_cons]
      exact ih rest (rolesAlternate_tail m rest h)

/-- The filler-insertion walk leaves an already-alternating suffix
unchanged. -/
theorem altAux_of_alternate (last : Msg) (l : List Msg)
    (h : rolesAlternate (last :: l) = true) : altAux last l = l := by
  induction l generalizing last with
  | nil => rfl
  | cons m rest ih =>
    by_cases hr : last.role = m.role
    · simp [rolesAlternate, hr] at h
    · have h2 : rolesAlternate (m :: rest) = true := by
        simpa [rolesAlternate, hr] using h
      have hr2 : ¬ m.role = last.role := fun e => hr e.symm
      rw [altAux, if_neg hr2, ih m h2]

/-- The role normalizer is the identity on alternating lists that start
with a user turn. -/
theorem fix_role_alternation_of_alternate (m0 : Msg) (rest : List Msg)
    (hu : m0.role = Role.user) (h : rolesAlternate (m0 :: rest) = true) :
    fix_role_alternation (m0 :: rest) = m0 :: rest := by
  rw [fix_role_alternation]
  rw [altAux_of_alternate m0 rest h]
  simp [hu]

/-- C6 counterexample: the claim says the summarizer compresses only when
the turn count exceeds the threshold (20) and returns any shorter history
unmodified, but the code triggers already at exactly 20 turns
(`if len(messages) < SUMMARIZE_THRESHOLD: return messages`): a
20-turn alternating history is modified. -/
theorem maybe_summarize_at_threshold :
    maybe_summarize (some "S") (altMsgs 20) ≠ altMsgs 20 := by decide

/-- C6 (amended): the summarizer returns any history of fewer than 20
turns unmodified and compresses from 20 turns on; on a 25-turn history
with alternating roles (threshold 20, keep-recent 10) the result is
exactly one synthetic summary turn, at most one filler turn, and the 10
newest turns retained verbatim, and its first turn has role user. -/
theorem maybe_summarize_spec :
    (∀ (res : Option String) (messages : List Msg),
        messages.length < SUMMARIZE_THRESHOLD →
        maybe_summarize res messages = messages) ∧
    (∀ (s : String) (messages : List Msg),
        messages.length = 25 → rolesAlternate messages = true →
        ∃ fillers : List Msg,
          maybe_summarize (some s) messages =
            summaryMessage s :: (fillers ++ messages.drop 15) ∧
          fillers.length ≤ 1 ∧ (summaryMessage s).role = Role.user) := by
  constructor
  · intro res messages h
    rw [maybe_summarize.eq_def, if_pos h]
  · intro s messages h25 halt
    have h1 : ¬ messages.length < SUMMARIZE_THRESHOLD := by
      rw [h25]; decide
    have hdropn : messages.length - KEEP_RECENT = 15 := by
      rw [h25]; decide
    have hlen : (messages.drop 15).length = 10 := by
      rw [List.length_drop, h25]
    have haltr : rolesAlternate (messages.drop 15) = true :=
      rolesAlternate_drop 15 messages halt
    rw [maybe_summarize.eq_def, if_neg h1]
    rw [hdropn]
    match hcons : messages.drop 15 with
    | [] => rw [hcons] at hlen; simp at hlen
    | r0 :: rrest =>
      rw [hcons] at haltr
      by_cases hr : r0.role = Role.user
      · refine ⟨[ackFiller], ?_, by decide, rfl⟩
        change fix_role_alternation
          ((if r0.role = Role.user then [summaryMessage s, ackFiller]
            else [summaryMessage s]) ++ r0 :: rrest) = _
        rw [if_pos hr]
        have hsr : (summaryMessage s).role = Role.user := rfl
        have har : ackFiller.role = Role.assistant := rfl
        have hcomb :
            rolesAlternate (summaryMessage s :: ackFiller :: r0 :: rrest) = true := by
          rw [rolesAlternate]
          rw [if_neg (by rw [hsr, har]; decide)]
          rw [rolesAlternate]
          rw [if_neg (by rw [har, hr]; decide)]
          exact haltr
        exact fix_role_alternation_of_alternate (summaryMessage s)
          (ackFiller :: r0 :: rrest) rfl hcomb
      · refine ⟨[], ?_, by decide, rfl⟩
        change fix_role_alternation
          ((if r0.role = Role.user then [summaryMessage s, ackFiller]
            else [summaryMessage s]) ++ r0 :: rrest) = _
        rw [if_neg hr]
        have hr2 : r0.role = Role.assistant := by
          cases hrr : r0.role
          · exact absurd hrr hr
          · rfl
        have hsr : (summaryMessage s).role = Role.user := rfl
        have hcomb :
            rolesAlternate (summaryMessage s :: r0 :: rrest) = true := by
          rw [rolesAlternate]
          rw [if_neg (by rw [hsr, hr2]; decide)]
          exact haltr
        exact fix_role_alternation_of_alternate (summaryMessage s)
          (r0 :: rrest) rfl hcomb

/-- C6 witness: a 19-turn history passes through unchanged, and the
25-turn alternating history is compressed to the summary turn plus at
most one filler plus the 10 newest turns, starting with a user turn. -/
theorem maybe_summarize_spec_witness :
    maybe_summarize none (altMsgs 19) = altMsgs 19 ∧
    (∃ fillers : List Msg,
      maybe_summarize (some "S") (altMsgs 25) =
        summaryMessage "S" :: (fillers ++ (altMsgs 25).drop 15) ∧
      fillers.length ≤ 1 ∧ (summaryMessage "S").role = Role.user) :=
  ⟨maybe_summarize_spec.1 none (altMsgs 19) (by decide),
   maybe_summarize_spec.2 "S" (altMsgs 25) (by decide) (by decide)⟩

/-- C9: the classifier returns categories that are a subset of the
available ones (any category the model invents is discarded), on any
provider-call or parse failure it returns exactly
needs_tools=true, categories=available, is_simple=false, and every entry
of the resulting tool-name filter is contributed by an available
category. -/
theorem classify_request_spec (avail : List String)
    (res : Option ParsedClassification) :
    ((classify_request avail res).categories ⊆ avail) ∧
    (res = none →
      classify_request avail res =
        { needsTools := true, categories := avail, isSimple := false }) ∧
    (∀ p ∈ buildToolPrefixes (classify_request avail res).categories,
      ∃ cat, cat ∈ avail ∧ p ∈ categoryPrefixes cat) := by
  have hsub : (classify_request avail res).categories ⊆ avail := by
    cases res with
    | none => simp [classify_request]
    | some d =>
      intro c hc
      rw [classify_request] at hc
      simp only [List.mem_filter] at hc
      exact of_decide_eq_true hc.2
  refine ⟨hsub, ?_, ?_⟩
  · intro h; rw [h, classify_request]
  · intro p hp
    rw [buildToolPrefixes] at hp
    rw [List.mem_flatMap] at hp
    obtain ⟨cat, hcat, hpc⟩ := hp
    exact ⟨cat, hsub hcat, hpc⟩

/-- C9 witness: with only the gmail category available, the invented
category "bogus" is discarded, a failed call yields the fail-safe
classification, and the "send_email" entry of the resulting filter is
contributed by the available gmail category. -/
theorem classify_request_spec_witness :
    ((classify_request ["gmail"]
        (some ⟨some true, ["gmail", "bogus"], some false⟩)).categories ⊆
      ["gmail"]) ∧
    classify_request ["gmail"] none =
      { needsTools := true, categories := ["gmail"], isSimple := false } ∧
    (∃ cat, cat ∈ ["gmail"] ∧ "send_email" ∈ categoryPrefixes cat) :=
  ⟨(classify_request_spec ["gmail"]
      (some ⟨some true, ["gmail", "bogus"], some false⟩)).1,
   (classify_request_spec ["gmail"] none).2.1 rfl,
   (classify_request_spec ["gmail"]
      (some ⟨some true, ["gmail", "bogus"], some false⟩)).2.2
     "send_email" (by decide)⟩

/-- The conditional UPDATE touches nothing when no row with this id is
still pending. -/
theorem resolveUpdate_of_none (db : ApprovalDb) (approvalId : Nat)
    (status : ApprovalStatus)
    (h : ∀ p ∈ db, p.1 = approvalId → p.2.status ≠ ApprovalStatus.pending) :
    resolveUpdate db approvalId status = (db, 0) := by
  induction db with
  | nil => rfl
  | cons q rest ih =>
    have hcond : ¬(q.1 = approvalId ∧ q.2.status = ApprovalStatus.pending) := by
      intro hc
      exact h q (List.mem_cons_self q rest) hc.1 hc.2
    have hrest := ih (fun p hp => h p (List.mem_cons_of_mem q hp))
    simp only [resolveUpdate, List.foldr_cons] at *
    rw [hrest, if_neg hcond]

/-- After the conditional UPDATE to a non-pending status, no row with
this id is pending any more. -/
theorem resolveUpdate_clears (db : ApprovalDb) (approvalId : Nat)
    (status : ApprovalStatus) (hs : status ≠ ApprovalStatus.pending) :
    ∀ p ∈ (resolveUpdate db approvalId status).1,
      p.1 = approvalId → p.2.status ≠ ApprovalStatus.pending := by
  induction db with
  | nil => intro p hp; simp [resolveUpdate] at hp
  | cons q rest ih =>
    intro p hp hid
    simp only [resolveUpdate, List.foldr_cons] at hp
    by_cases hcond : q.1 = approvalId ∧ q.2.status = ApprovalStatus.pending
    · rw [if_pos hcond] at hp
      rcases List.mem_cons.mp hp with he | hm
      · rw [he]; exact hs
      · exact ih p hm hid
    · rw [if_neg hcond] at hp
      rcases List.mem_cons.mp hp with he | hm
      · rw [he] at hid ⊢
        intro hpend
        exact hcond ⟨hid, hpend⟩
      · exact ih p hm hid

/-- A table with no pending row for this id yields no pending approval. -/
theorem get_pending_none_of (db : ApprovalDb) (approvalId : Nat)
    (h : ∀ p ∈ db, p.1 = approvalId → p.2.status ≠ ApprovalStatus.pending) :
    get_pending_approval db approvalId = none := by
  rw [get_pending_approval]
  have : db.find? (fun p =>
      p.1 = approvalId ∧ p.2.status = ApprovalStatus.pending) = none := by
    rw [List.find?_eq_none]
    intro p hp
    simp only [decide_eq_true_eq, not_and]
    exact h p hp
  rw [this]
  rfl

/-- After an approve callback, no row with its id is pending. -/
theorem after_approve_no_pending (db : ApprovalDb) (approvalId : Nat) :
    ∀ p ∈ (on_approve db approvalId).1,
      p.1 = approvalId → p.2.status ≠ ApprovalStatus.pending := by
  rw [on_approve]
  cases hg : get_pending_approval db approvalId with
  | none =>
    intro p hp hid
    rw [get_pending_approval] at hg
    have hfind := Option.map_eq_none.mp hg
    have := List.find?_eq_none.mp hfind p hp
    simp only [decide_eq_true_eq, not_and] at this
    exact this hid
  | some row =>
    exact resolveUpdate_clears db approvalId ApprovalStatus.approved
      (by intro e; cases e)

/-- After a reject callback, no row with its id is pending. -/
theorem after_reject_no_pending (db : ApprovalDb) (approvalId : Nat) :
    ∀ p ∈ (on_reject db approvalId).1,
      p.1 = approvalId → p.2.status ≠ ApprovalStatus.pending := by
  rw [on_reject]
  cases hg : get_pending_approval db approvalId with
  | none =>
    intro p hp hid
    rw [get_pending_approval] at hg
    have hfind := Option.map_eq_none.mp hg
    have := List.find?_eq_none.mp hfind p hp
    simp only [decide_eq_true_eq, not_and] at this
    exact this hid
  | some row =>
    exact resolveUpdate_clears db approvalId ApprovalStatus.rejected
      (by intro e; cases e)

/-- C2: `resolve_approval` performs the pending-guarded conditional update
— on a table with no pending row for the id it returns False and leaves
the table unchanged — and a second approve or reject callback after a
resolution finds no pending request and performs no tool execution: the
second resolution is a no-op failure. -/
theorem approval_exactly_once :
    (∀ (db : ApprovalDb) (approvalId : Nat) (status : ApprovalStatus),
        (∀ p ∈ db, p.1 = approvalId → p.2.status ≠ ApprovalStatus.pending) →
        resolve_approval db approvalId status = (db, false)) ∧
    (∀ (db : ApprovalDb) (approvalId : Nat),
        on_approve (on_approve db approvalId).1 approvalId =
          ((on_approve db approvalId).1, false)) ∧
    (∀ (db : ApprovalDb) (approvalId : Nat),
        on_reject (on_approve db approvalId).1 approvalId =
          ((on_approve db approvalId).1, false)) ∧
    (∀ (db : ApprovalDb) (approvalId : Nat),
        on_approve (on_reject db approvalId).1 approvalId =
          ((on_reject db approvalId).1, false)) := by
  refine ⟨?_, ?_, ?_, ?_⟩
  · intro db approvalId status h
    rw [resolve_approval]
    rw [resolveUpdate_of_none db approvalId status h]
    rfl
  · intro db approvalId
    have hnone := get_pending_none_of (on_approve db approvalId).1 approvalId
      (after_approve_no_pending db approvalId)
    rw [on_approve, hnone]
  · intro db approvalId
    have hnone := get_pending_none_of (on_approve db approvalId).1 approvalId
      (after_approve_no_pending db approvalId)
    rw [on_reject, hnone]
  · intro db approvalId
    have hnone := get_pending_none_of (on_reject db approvalId).1 approvalId
      (after_reject_no_pending db approvalId)
    rw [on_approve, hnone]

/-- C2 witness: resolving an already-approved request is rejected by the
persistence layer with the table unchanged, and a second approve on a
table that held one pending request is a no-op failure after the first
approve consumed it. -/
theorem approval_exactly_once_witness :
    resolve_approval exDbResolved 1 ApprovalStatus.rejected =
      (exDbResolved, false) ∧
    on_approve (on_approve exDbPending 1).1 1 =
      ((on_approve exDbPending 1).1, false) :=
  ⟨approval_exactly_once.1 exDbResolved 1 ApprovalStatus.rejected (by decide),
   approval_exactly_once.2.1 exDbPending 1⟩

section AlistLemmas

variable {K V : Type} [DecidableEq K]

/-- Unfolding lemma for association-list lookup. -/
theorem alistLookup_cons (p : K × V) (m : List (K × V)) (k : K) :
    alistLookup (p :: m) k = if p.1 = k then some p.2 else alistLookup m k := by
  by_cases h : p.1 = k
  · simp [alistLookup, List.find?_cons, h]
  · simp [alistLookup, List.find?_cons, h]

/-- Absent keys are exactly those no pair carries. -/
theorem alistLookup_eq_none_iff (m : List (K × V)) (k : K) :
    alistLookup m k = none ↔ ∀ p ∈ m, p.1 ≠ k := by
  rw [alistLookup, Option.map_eq_none', List.find?_eq_none]
  constructor
  · intro h p hp
    have := h p hp
    simpa using this
  · intro h p hp
    simpa using h p hp

/-- In-place replacement makes the key map to the new value. -/
theorem lookup_replace_self (m : List (K × V)) (k : K) (v : V)
    (h : (alistLookup m k).isSome) :
    alistLookup (m.map (fun p => if p.1 = k then (k, v) else p)) k = some v := by
  induction m with
  | nil => simp [alistLookup] at h
  | cons p rest ih =>
    by_cases hp : p.1 = k
    · simp only [List.map_cons, if_pos hp]
      rw [alistLookup_cons, if_pos rfl]
    · simp only [List.map_cons, if_neg hp]
      rw [alistLookup_cons, if_neg hp]
      rw [alistLookup_cons, if_neg hp] at h
      exact ih h

/-- In-place replacement leaves other keys untouched. -/
theorem lookup_replace_ne (m : List (K × V)) (k : K) (v : V) (k2 : K)
    (h : k2 ≠ k) :
    alistLookup (m.map (fun p => if p.1 = k then (k, v) else p)) k2 =
      alistLookup m k2 := by
  induction m with
  | nil => rfl
  | cons p rest ih =>
    by_cases hp : p.1 = k
    · simp only [List.map_cons, if_pos hp]
      rw [alistLookup_cons, alistLookup_cons]
      have h1 : ¬ (k, v).1 = k2 := fun e => h e.symm
      have h2 : ¬ p.1 = k2 := by rw [hp]; exact fun e => h e.symm
      rw [if_neg h1, if_neg h2]
      exact ih
    · simp only [List.map_cons, if_neg hp]
      rw [alistLookup_cons, alistLookup_cons]
      by_cases hq : p.1 = k2
      · rw [if_pos hq, if_pos hq]
      · rw [if_neg hq, if_neg hq]
        exact ih

/-- Appending a fresh binding makes its key map to its value. -/
theorem lookup_append_self (m : List (K × V)) (k : K) (v : V)
    (h : alistLookup m k = none) :
    alistLookup (m ++ [(k, v)]) k = some v := by
  induction m with
  | nil => simp [alistLookup, List.find?_cons]
  | cons p rest ih =>
    rw [alistLookup_cons] at h
    by_cases hp : p.1 = k
    · rw [if_pos hp] at h; cases h
    · rw [if_neg hp] at h
      rw [List.cons_append, alistLookup_cons, if_neg hp]
      exact ih h

/-- Appending a binding leaves other keys untouched. -/
theorem lookup_append_ne (m : List (K × V)) (k : K) (v : V) (k2 : K)
    (h : k2 ≠ k) :
    alistLookup (m ++ [(k, v)]) k2 = alistLookup m k2 := by
  induction m with
  | nil =>
    rw [List.nil_append, alistLookup_cons, if_neg (fun e => h e.symm)]
  | cons p rest ih =>
    rw [List.cons_append, alistLookup_cons, alistLookup_cons]
    by_cases hp : p.1 = k2
    · rw [if_pos hp, if_pos hp]
    · rw [if_neg hp, if_neg hp]
      exact ih

/-- Dict assignment makes the key map to the assigned value. -/
theorem alistLookup_insert_self (m : List (K × V)) (k : K) (v : V) :
    alistLookup (alistInsert m k v) k = some v := by
  rw [alistInsert]
  by_cases h : (alistLookup m k).isSome
  · rw [if_pos h]; exact lookup_replace_self m k v h
  · rw [if_neg h]
    exact lookup_append_self m k v (Option.not_isSome_iff_eq_none.mp h)

/-- Dict assignment leaves other keys untouched. -/
theorem alistLookup_insert_ne (m : List (K × V)) (k : K) (v : V) (k2 : K)
    (h : k2 ≠ k) :
    alistLookup (alistInsert m k v) k2 = alistLookup m k2 := by
  rw [alistInsert]
  by_cases hs : (alistLookup m k).isSome
  · rw [if_pos hs]; exact lookup_replace_ne m k v k2 h
  · rw [if_neg hs]; exact lookup_append_ne m k v k2 h

/-- Dict pop removes the key. -/
theorem alistLookup_erase_self (m : List (K × V)) (k : K) :
    alistLookup (alistErase m k) k = none := by
  rw [alistLookup_eq_none_iff]
  intro p hp
  have := List.of_mem_filter hp
  simpa using this

/-- Dict pop leaves other keys untouched. -/
theorem alistLookup_erase_ne (m : List (K × V)) (k : K) (k2 : K)
    (h : k2 ≠ k) :
    alistLookup (alistErase m k) k2 = alistLookup m k2 := by
  induction m with
  | nil => rfl
  | cons p rest ih =>
    rw [alistErase, List.filter_cons]
    by_cases hp : p.1 = k
    · rw [if_neg (by simp [hp])]
      rw [alistLookup_cons, if_neg (by rw [hp]; exact fun e => h e.symm)]
      exact ih
    · rw [if_pos (by simp [hp])]
      rw [alistLookup_cons, alistLookup_cons]
      by_cases hq : p.1 = k2
      · rw [if_pos hq, if_pos hq]
      · rw [if_neg hq, if_neg hq]
        exact ih

end AlistLemmas

/-- Filtering away a set of tool-name keys removes them (stated at the
registry's concrete key type so the decidability instances line up with
the definitions). -/
theorem lookup_filterKeys_none {V : Type} (m : List (TName × V))
    (names : List TName) (k : TName) (h : k ∈ names) :
    alistLookup (m.filter (fun p => p.1 ∉ names)) k = none := by
  rw [alistLookup_eq_none_iff]
  intro p hp
  have hnot := List.of_mem_filter hp
  simp only [decide_not, Bool.not_eq_true', decide_eq_false_iff_not] at hnot
  intro e
  exact hnot (by rw [e]; exact h)

/-- Filtering away a set of tool-name keys leaves other keys untouched. -/
theorem lookup_filterKeys_same {V : Type} (m : List (TName × V))
    (names : List TName) (k : TName) (h : k ∉ names) :
    alistLookup (m.filter (fun p => p.1 ∉ names)) k = alistLookup m k := by
  induction m with
  | nil => rfl
  | cons p rest ih =>
    rw [List.filter_cons]
    by_cases hp : p.1 ∈ names
    · rw [if_neg (by simp [hp])]
      rw [alistLookup_cons, if_neg (fun e => h (by rw [← e]; exact hp))]
      exact ih
    · rw [if_pos (by simp [hp])]
      rw [alistLookup_cons, alistLookup_cons]
      by_cases hq : p.1 = k
      · rw [if_pos hq, if_pos hq]
      · rw [if_neg hq, if_neg hq]
        exact ih

/-- A list is a Boolean prefix of itself followed by anything. -/
theorem isPrefixOf_append_self (p l : List Char) :
    p.isPrefixOf (p ++ l) = true := by
  induction p with
  | nil => simp [List.isPrefixOf]
  | cons c cs ih => simp [List.isPrefixOf, ih]

/-- A Boolean prefix test fails when the heads differ. -/
theorem isPrefixOf_ne_head (a b : Char) (as bs : List Char)
    (h : (a == b) = false) : (a :: as).isPrefixOf (b :: bs) = false := by
  simp [List.isPrefixOf, h]

/-- Case analysis on membership in the program's namespace-string table. -/
theorem prefixValues_mem_cases (q : TName) (hq : q ∈ toolPrefixValues) :
    q = [] ∨ q = "tg_".data ∨ q = "wa_".data ∨ q = "slack_".data := by
  have he : toolPrefixValues =
      [[], [], "tg_".data, "wa_".data, "slack_".data, [], []] := by decide
  rw [he] at hq
  simp only [List.mem_cons, List.not_mem_nil, or_false] at hq
  tauto

/-- Distinct nonempty namespace strings of the table never shadow each
other: none is a prefix of another one followed by anything (their first
characters differ). -/
theorem prefixValues_no_cross (q p : TName)
    (hq : q = "tg_".data ∨ q = "wa_".data ∨ q = "slack_".data)
    (hp : p = "tg_".data ∨ p = "wa_".data ∨ p = "slack_".data)
    (X : TName) (hpre : q.isPrefixOf (p ++ X) = true) : q = p := by
  rcases hq with hq | hq | hq <;> rcases hp with hp | hp | hp <;>
      subst hq <;> subst hp <;>
      first
      | rfl
      | simp [List.isPrefixOf] at hpre

/-- The instance scan of `get_original_tool_name` maps a namespaced name
back to its native name, provided every registered prefix comes from the
program's namespace table. -/
theorem goOriginalName_roundtrip
    (entries : List (String × (Client × TName × List TName)))
    (p X : TName) (origs : List TName) (c : Client) (iid : String)
    (hall : ∀ e ∈ entries, e.2.2.1 ∈ toolPrefixValues)
    (hp : p ≠ [])
    (hmem : (iid, (c, p, origs)) ∈ entries)
    (hX : X ∈ origs) :
    goOriginalName (p ++ X) entries = X := by
  induction entries with
  | nil => simp at hmem
  | cons e rest ih =>
    have hallr : ∀ e2 ∈ rest, e2.2.2.1 ∈ toolPrefixValues :=
      fun e2 h2 => hall e2 (List.mem_cons_of_mem e h2)
    rcases List.mem_cons.mp hmem with he | hm
    · rw [← he]
      rw [goOriginalName]
      rw [if_neg hp, if_pos (isPrefixOf_append_self p X)]
      rw [List.drop_left]
      rw [if_pos hX]
    · have hq := hall e (List.mem_cons_self e rest)
      have hpv : p ∈ toolPrefixValues := by
        have := hall (iid, (c, p, origs)) (List.mem_cons_of_mem e hm)
        exact this
      rw [goOriginalName]
      by_cases hqe : e.2.2.1 = []
      · rw [if_pos hqe]
        exact ih hallr hm
      · rw [if_neg hqe]
        by_cases hpre : e.2.2.1.isPrefixOf (p ++ X) = true
        · rw [if_pos hpre]
          have hq3 : e.2.2.1 = "tg_".data ∨ e.2.2.1 = "wa_".data ∨
              e.2.2.1 = "slack_".data := by
            rcases prefixValues_mem_cases e.2.2.1 hq with h0 | h0 | h0 | h0
            · exact absurd h0 hqe
            · exact Or.inl h0
            · exact Or.inr (Or.inl h0)
            · exact Or.inr (Or.inr h0)
          have hp3 : p = "tg_".data ∨ p = "wa_".data ∨ p = "slack_".data := by
            rcases prefixValues_mem_cases p hpv with h0 | h0 | h0 | h0
            · exact absurd h0 hp
            · exact Or.inl h0
            · exact Or.inr (Or.inl h0)
            · exact Or.inr (Or.inr h0)
          have hqp : e.2.2.1 = p := prefixValues_no_cross _ _ hq3 hp3 X hpre
          rw [hqp, List.drop_left]
          by_cases hXo : X ∈ e.2.2.2
          · rw [if_pos hXo]
          · rw [if_neg hXo]
            exact ih hallr hm
        · rw [if_neg hpre]
          exact ih hallr hm

/-- One `registerTool` step establishes exposure of the tool it
processes: the namespaced name is in the catalog and routes to the
registering client. -/
theorem registerTool_establishes (st : Registry) (client : Client)
    (pref : TName) (t : Tool) :
    (pref ++ t.name) ∈
      ((registerTool st client pref t).allTools.map Tool.name) ∧
    alistLookup (registerTool st client pref t).toolToClient
      (pref ++ t.name) = some client := by
  rw [registerTool]
  constructor
  · simp
  · exact alistLookup_insert_self _ _ _

/-- Later `registerTool` steps of the same client preserve exposure of an
already-processed tool name. -/
theorem registerTool_preserves_exposure (st : Registry) (client : Client)
    (pref : TName) (t2 : Tool) (pname : TName)
    (h1 : pname ∈ (st.allTools.map Tool.name))
    (h2 : alistLookup st.toolToClient pname = some client) :
    pname ∈ ((registerTool st client pref t2).allTools.map Tool.name) ∧
    alistLookup (registerTool st client pref t2).toolToClient pname =
      some client := by
  rw [registerTool]
  by_cases he : pref ++ t2.name = pname
  · constructor
    · simp [he]
    · rw [he, alistLookup_insert_self]
  · constructor
    · by_cases hl : (alistLookup st.toolToClient (pref ++ t2.name)).isSome
      · rw [if_pos hl]
        simp only [List.map_append, List.mem_append]
        left
        obtain ⟨d, hd, hdn⟩ := List.mem_map.mp h1
        refine List.mem_map.mpr ⟨d, ?_, hdn⟩
        refine List.mem_filter.mpr ⟨hd, ?_⟩
        simp only [decide_eq_true_eq]
        rw [hdn]
        exact fun e => he e.symm
      · rw [if_neg hl]
        simp only [List.map_append, List.mem_append]
        left
        exact h1
    · by_cases hl : (alistLookup st.toolToClient (pref ++ t2.name)).isSome
      · rw [if_pos hl]
        rw [alistLookup_insert_ne _ _ _ _ (fun e => he e.symm)]
        exact h2
      · rw [if_neg hl]
        rw [alistLookup_insert_ne _ _ _ _ (fun e => he e.symm)]
        exact h2

/-- Exposure survives the remainder of the registration fold. -/
theorem registerFold_preserves_exposure (client : Client) (pref : TName)
    (tools : List Tool) (st : Registry) (pname : TName)
    (h1 : pname ∈ (st.allTools.map Tool.name))
    (h2 : alistLookup st.toolToClient pname = some client) :
    pname ∈
      ((tools.foldl (fun acc tool => registerTool acc client pref tool)
        st).allTools.map Tool.name) ∧
    alistLookup
      (tools.foldl (fun acc tool => registerTool acc client pref tool)
        st).toolToClient pname = some client := by
  induction tools generalizing st with
  | nil => exact ⟨h1, h2⟩
  | cons t0 rest ih =>
    rw [List.foldl_cons]
    have hstep := registerTool_preserves_exposure st client pref t0 pname h1 h2
    exact ih (registerTool st client pref t0) hstep.1 hstep.2

/-- Every tool of the registration fold ends up exposed. -/
theorem registerFold_exposes (client : Client) (pref : TName)
    (tools : List Tool) (st : Registry) (t : Tool) (ht : t ∈ tools) :
    (pref ++ t.name) ∈
      ((tools.foldl (fun acc tool => registerTool acc client pref tool)
        st).allTools.map Tool.name) ∧
    alistLookup
      (tools.foldl (fun acc tool => registerTool acc client pref tool)
        st).toolToClient (pref ++ t.name) = some client := by
  induction tools generalizing st with
  | nil => simp at ht
  | cons t0 rest ih =>
    rw [List.foldl_cons]
    rcases List.mem_cons.mp ht with he | hm
    · rw [he]
      have hest := registerTool_establishes st client pref t0
      exact registerFold_preserves_exposure client pref rest
        (registerTool st client pref t0) (pref ++ t0.name) hest.1 hest.2
    · exact ih (registerTool st client pref t0) hm

/-- C5: registering an instance under namespace string `p` exposes every
declared native tool name `X` in the catalog under `p ++ X`, routed to
the registering client; and on any registry whose instances carry
namespace strings from the program's `TOOL_PREFIX_MAP` table,
`get_original_tool_name` maps `p ++ X` back to the native name `X`
before the call reaches the server. -/
theorem namespace_roundtrip :
    (∀ (st : Registry) (iid : String) (client : Client) (pref : TName),
        ∀ t ∈ client.tools,
          (pref ++ t.name) ∈
            ((register_instance st iid client pref).allTools.map Tool.name) ∧
          alistLookup (register_instance st iid client pref).toolToClient
            (pref ++ t.name) = some client) ∧
    (∀ (st : Registry) (iid : String) (c : Client) (pref : TName)
        (origs : List TName) (X : TName),
        (∀ e ∈ st.instances, e.2.2.1 ∈ toolPrefixValues) →
        pref ≠ [] →
        (iid, (c, pref, origs)) ∈ st.instances →
        X ∈ origs →
        get_original_tool_name st (pref ++ X) = X) := by
  constructor
  · intro st iid client pref t ht
    rw [register_instance]
    exact registerFold_exposes client pref client.tools st t ht
  · intro st iid c pref origs X hall hp hmem hX
    rw [get_original_tool_name]
    exact goOriginalName_roundtrip st.instances pref X origs c iid
      hall hp hmem hX

/-- C5 witness: the example Telegram client's native `send_message` is
exposed as `tg_send_message`, routed to the client, and resolved back to
`send_message` on dispatch. -/
theorem namespace_roundtrip_witness :
    ("tg_".data ++ "send_message".data) ∈
      (exRegistryTg.allTools.map Tool.name) ∧
    alistLookup exRegistryTg.toolToClient
      ("tg_".data ++ "send_message".data) = some exClientTg ∧
    get_original_tool_name exRegistryTg
      ("tg_".data ++ "send_message".data) = "send_message".data :=
  ⟨((namespace_roundtrip.1 emptyRegistry "tg_main" exClientTg "tg_".data
      exToolSend (by decide)).1 : _),
   (namespace_roundtrip.1 emptyRegistry "tg_main" exClientTg "tg_".data
      exToolSend (by decide)).2,
   namespace_roundtrip.2 exRegistryTg "tg_main" exClientTg "tg_".data
     ["send_message".data] "send_message".data (by decide) (by decide)
     (by decide) (by decide)⟩

/-- Under the registry invariant, a catalogued name is routable. -/
theorem names_routable (st : Registry) (h : registryInv st) (pname : TName)
    (hm : pname ∈ (st.allTools.map Tool.name)) :
    (alistLookup st.toolToClient pname).isSome := by
  obtain ⟨d, hd, hdn⟩ := List.mem_map.mp hm
  have := h.2 d hd
  rw [hdn] at this
  exact this

/-- One `registerTool` step preserves the registry invariant. -/
theorem registerTool_inv (st : Registry) (client : Client) (pref : TName)
    (t : Tool) (h : registryInv st) :
    registryInv (registerTool st client pref t) := by
  rw [registerTool]
  by_cases hl : (alistLookup st.toolToClient (pref ++ t.name)).isSome
  · rw [if_pos hl]
    constructor
    · simp only [List.map_append, List.map_cons, List.map_nil]
      apply List.Nodup.append
      · exact h.1.sublist (List.Sublist.map Tool.name (List.filter_sublist _))
      · exact List.nodup_singleton _
      · intro a ha hb
        rw [List.mem_singleton] at hb
        obtain ⟨d, hd, hdn⟩ := List.mem_map.mp ha
        have hne := List.of_mem_filter hd
        simp only [decide_eq_true_eq] at hne
        rw [hb] at hdn
        exact hne hdn
    · intro d hd
      rcases List.mem_append.mp hd with hdl | hdr
      · by_cases hdn : d.name = pref ++ t.name
        · rw [hdn, alistLookup_insert_self]; rfl
        · rw [alistLookup_insert_ne _ _ _ _ hdn]
          exact h.2 d (List.mem_of_mem_filter hdl)
      · rw [List.mem_singleton] at hdr
        rw [hdr, alistLookup_insert_self]; rfl
  · rw [if_neg hl]
    constructor
    · simp only [List.map_append, List.map_cons, List.map_nil]
      apply List.Nodup.append h.1 (List.nodup_singleton _)
      intro a ha hb
      rw [List.mem_singleton] at hb
      rw [hb] at ha
      exact hl (names_routable st h _ ha)
    · intro d hd
      rcases List.mem_append.mp hd with hdl | hdr
      · by_cases hdn : d.name = pref ++ t.name
        · rw [hdn, alistLookup_insert_self]; rfl
        · rw [alistLookup_insert_ne _ _ _ _ hdn]
          exact h.2 d hdl
      · rw [List.mem_singleton] at hdr
        rw [hdr, alistLookup_insert_self]; rfl

/-- The registration fold preserves the registry invariant. -/
theorem registerFold_inv (client : Client) (pref : TName)
    (tools : List Tool) (st : Registry) (h : registryInv st) :
    registryInv
      (tools.foldl (fun acc tool => registerTool acc client pref tool) st) := by
  induction tools generalizing st with
  | nil => exact h
  | cons t0 rest ih =>
    rw [List.foldl_cons]
    exact ih (registerTool st client pref t0)
      (registerTool_inv st client pref t0 h)

/-- `register_instance` preserves the registry invariant. -/
theorem register_instance_inv (st : Registry) (iid : String)
    (client : Client) (pref : TName) (h : registryInv st) :
    registryInv (register_instance st iid client pref) :=
  registerFold_inv client pref client.tools st h

/-- `unregister_instance` preserves the registry invariant. -/
theorem unregister_instance_inv (st : Registry) (iid : String)
    (h : registryInv st) : registryInv (unregister_instance st iid) := by
  rw [unregister_instance]
  cases hl : alistLookup st.instances iid with
  | none => exact h
  | some entry =>
    show registryInv
      { toolToClient := st.toolToClient.filter
          (fun p => p.1 ∉ entry.2.2.map (fun n => entry.2.1 ++ n))
        allTools := st.allTools.filter
          (fun t => t.name ∉ entry.2.2.map (fun n => entry.2.1 ++ n))
        instances := alistErase st.instances iid }
    constructor
    · exact h.1.sublist (List.Sublist.map Tool.name (List.filter_sublist _))
    · intro d hd
      have hd2 : d ∈ st.allTools.filter
          (fun t => t.name ∉ entry.2.2.map (fun n => entry.2.1 ++ n)) := hd
      have hkeep := List.of_mem_filter hd2
      simp only [decide_not, Bool.not_eq_true', decide_eq_false_iff_not] at hkeep
      show (alistLookup (st.toolToClient.filter
        (fun p => p.1 ∉ entry.2.2.map (fun n => entry.2.1 ++ n)))
        d.name).isSome = true
      rw [lookup_filterKeys_same _ _ _ hkeep]
      exact h.2 d (List.mem_of_mem_filter hd2)

/-- Any sequence of registry calls preserves the invariant from the fresh
registry.  Stated over an arbitrary invariant-satisfying start state. -/
theorem applyOps_from_inv (ops : List RegistryOp) (st : Registry)
    (h : registryInv st) : registryInv (ops.foldl applyOp st) := by
  induction ops generalizing st with
  | nil => exact h
  | cons op rest ih =>
    rw [List.foldl_cons]
    apply ih
    cases op with
    | reg iid c p => exact register_instance_inv st iid c p h
    | unreg iid => exact unregister_instance_inv st iid h

/-- The fresh registry satisfies the invariant. -/
theorem emptyRegistry_inv : registryInv emptyRegistry := by
  constructor
  · exact List.nodup_nil
  · intro d hd
    simp [emptyRegistry] at hd

/-- Every reachable registry satisfies the invariant. -/
theorem applyOps_inv (ops : List RegistryOp) : registryInv (applyOps ops) :=
  applyOps_from_inv ops emptyRegistry emptyRegistry_inv

/-- Names other than the overwritten one survive the overwrite filter. -/
theorem filter_name_of_filter_ne (l : List Tool) (pn2 pname : TName)
    (hne : pname ≠ pn2) :
    (l.filter (fun d => d.name ≠ pn2)).filter (fun d => d.name = pname) =
      l.filter (fun d => d.name = pname) := by
  induction l with
  | nil => rfl
  | cons d rest ih =>
    by_cases hd : d.name = pname
    · have hd2 : ¬ d.name = pn2 := by rw [hd]; exact hne
      rw [List.filter_cons, if_pos (by simp [hd2])]
      rw [List.filter_cons, if_pos (by simp [hd])]
      rw [List.filter_cons, if_pos (by simp [hd])]
      rw [ih]
    · by_cases hd2 : d.name = pn2
      · rw [List.filter_cons, if_neg (by simp [hd2])]
        rw [List.filter_cons, if_neg (by simp [hd])]
        exact ih
      · rw [List.filter_cons, if_pos (by simp [hd2])]
        rw [List.filter_cons, if_neg (by simp [hd])]
        rw [List.filter_cons, if_neg (by simp [hd])]
        exact ih

/-- Under the invariant, one `registerTool` step leaves exactly one
descriptor for the name it processes, routed to its client. -/
theorem registerTool_count_establish (st : Registry) (client : Client)
    (pref : TName) (t : Tool) (hinv : registryInv st) :
    alistLookup (registerTool st client pref t).toolToClient
      (pref ++ t.name) = some client ∧
    countName (registerTool st client pref t) (pref ++ t.name) = 1 := by
  refine ⟨(registerTool_establishes st client pref t).2, ?_⟩
  rw [registerTool, countName]
  by_cases hl : (alistLookup st.toolToClient (pref ++ t.name)).isSome
  · rw [if_pos hl]
    simp only [List.filter_append]
    have h0 : (st.allTools.filter
        (fun d => d.name ≠ pref ++ t.name)).filter
          (fun d => d.name = pref ++ t.name) = [] := by
      rw [List.filter_eq_nil_iff]
      intro d hd
      have := List.of_mem_filter hd
      simp only [decide_eq_true_eq] at this ⊢
      exact this
    rw [h0]
    simp
  · rw [if_neg hl]
    simp only [List.filter_append]
    have h0 : st.allTools.filter (fun d => d.name = pref ++ t.name) = [] := by
      rw [List.filter_eq_nil_iff]
      intro d hd
      simp only [decide_eq_true_eq]
      intro he
      apply hl
      apply names_routable st hinv
      exact List.mem_map.mpr ⟨d, hd, he⟩
    rw [h0]
    simp

/-- Uniqueness of a descriptor and its routing survive later
`registerTool` steps of the same client. -/
theorem registerTool_count_preserve (st : Registry) (client : Client)
    (pref : TName) (t2 : Tool) (pname : TName)
    (h1 : alistLookup st.toolToClient pname = some client)
    (h2 : countName st pname = 1) :
    alistLookup (registerTool st client pref t2).toolToClient pname =
      some client ∧
    countName (registerTool st client pref t2) pname = 1 := by
  rw [registerTool, countName]
  by_cases he : pref ++ t2.name = pname
  · have hl : (alistLookup st.toolToClient (pref ++ t2.name)).isSome := by
      rw [he, h1]; rfl
    rw [if_pos hl]
    constructor
    · rw [he, alistLookup_insert_self]
    · simp only [List.filter_append]
      have h0 : (st.allTools.filter
          (fun d => d.name ≠ pref ++ t2.name)).filter
            (fun d => d.name = pname) = [] := by
        rw [List.filter_eq_nil_iff]
        intro d hd
        have := List.of_mem_filter hd
        simp only [decide_eq_true_eq] at this ⊢
        rw [← he]
        exact this
      rw [h0]
      simp [he]
  · constructor
    · by_cases hl : (alistLookup st.toolToClient (pref ++ t2.name)).isSome
      · rw [if_pos hl, alistLookup_insert_ne _ _ _ _ (fun e => he e.symm)]
        exact h1
      · rw [if_neg hl, alistLookup_insert_ne _ _ _ _ (fun e => he e.symm)]
        exact h1
    · have hne : pname ≠ pref ++ t2.name := fun e => he e.symm
      by_cases hl : (alistLookup st.toolToClient (pref ++ t2.name)).isSome
      · rw [if_pos hl]
        simp only [List.filter_append]
        rw [filter_name_of_filter_ne st.allTools (pref ++ t2.name) pname hne]
        rw [countName] at h2
        simp [h2, he]
      · rw [if_neg hl]
        simp only [List.filter_append]
        rw [countName] at h2
        simp [h2, he]

/-- Uniqueness and routing survive the remainder of the registration
fold. -/
theorem registerFold_count_preserve (client : Client) (pref : TName)
    (tools : List Tool) (st : Registry) (pname : TName)
    (h1 : alistLookup st.toolToClient pname = some client)
    (h2 : countName st pname = 1) :
    alistLookup
      (tools.foldl (fun acc tool => registerTool acc client pref tool)
        st).toolToClient pname = some client ∧
    countName
      (tools.foldl (fun acc tool => registerTool acc client pref tool) st)
      pname = 1 := by
  induction tools generalizing st with
  | nil => exact ⟨h1, h2⟩
  | cons t0 rest ih =>
    rw [List.foldl_cons]
    have hstep := registerTool_count_preserve st client pref t0 pname h1 h2
    exact ih (registerTool st client pref t0) hstep.1 hstep.2

/-- Under the invariant, the registration fold leaves exactly one
descriptor for each declared name, routed to the registering client. -/
theorem registerFold_count (client : Client) (pref : TName)
    (tools : List Tool) (st : Registry) (t : Tool) (ht : t ∈ tools)
    (hinv : registryInv st) :
    alistLookup
      (tools.foldl (fun acc tool => registerTool acc client pref tool)
        st).toolToClient (pref ++ t.name) = some client ∧
    countName
      (tools.foldl (fun acc tool => registerTool acc client pref tool) st)
      (pref ++ t.name) = 1 := by
  induction tools generalizing st with
  | nil => simp at ht
  | cons t0 rest ih =>
    rw [List.foldl_cons]
    rcases List.mem_cons.mp ht with he | hm
    · rw [he]
      have hest := registerTool_count_establish st client pref t0 hinv
      exact registerFold_count_preserve client pref rest
        (registerTool st client pref t0) (pref ++ t0.name) hest.1 hest.2
    · exact ih (registerTool st client pref t0) hm
        (registerTool_inv st client pref t0 hinv)

/-- Splitting one call off an op sequence. -/
theorem applyOps_append (ops : List RegistryOp) (op : RegistryOp) :
    applyOps (ops ++ [op]) = applyOp (applyOps ops) op := by
  rw [applyOps, applyOps, List.foldl_append]
  rfl

/-- C10: on every registry reachable by register/unregister call
sequences the catalog holds at most one descriptor per namespaced name;
registering an instance makes each of its namespaced names route to the
registering client with exactly one catalog descriptor (an
already-present name is silently replaced); hence after two same-prefix
registrations declaring the same native name the name routes only to the
most recent client — the earlier instance is no longer routable for it. -/
theorem registry_last_wins :
    (∀ ops : List RegistryOp, ((applyOps ops).allTools.map Tool.name).Nodup) ∧
    (∀ (ops : List RegistryOp) (iid : String) (client : Client) (pref : TName),
        ∀ t ∈ client.tools,
          alistLookup (register_instance (applyOps ops) iid client
            pref).toolToClient (pref ++ t.name) = some client ∧
          countName (register_instance (applyOps ops) iid client pref)
            (pref ++ t.name) = 1) ∧
    (∀ (ops : List RegistryOp) (iid1 iid2 : String) (c1 c2 : Client)
        (pref : TName) (t1 t2 : Tool),
        t1 ∈ c1.tools → t2 ∈ c2.tools → t1.name = t2.name →
        alistLookup (register_instance
            (register_instance (applyOps ops) iid1 c1 pref) iid2 c2
            pref).toolToClient (pref ++ t1.name) = some c2 ∧
        countName (register_instance
            (register_instance (applyOps ops) iid1 c1 pref) iid2 c2 pref)
          (pref ++ t1.name) = 1) := by
  have hmain : ∀ (ops : List RegistryOp) (iid : String) (client : Client)
      (pref : TName), ∀ t ∈ client.tools,
      alistLookup (register_instance (applyOps ops) iid client
        pref).toolToClient (pref ++ t.name) = some client ∧
      countName (register_instance (applyOps ops) iid client pref)
        (pref ++ t.name) = 1 := by
    intro ops iid client pref t ht
    rw [register_instance]
    exact registerFold_count client pref client.tools (applyOps ops) t ht
      (applyOps_inv ops)
  refine ⟨fun ops => (applyOps_inv ops).1, hmain, ?_⟩
  intro ops iid1 iid2 c1 c2 pref t1 t2 ht1 ht2 hname
  have h := hmain (ops ++ [RegistryOp.reg iid1 c1 pref]) iid2 c2 pref t2 ht2
  rw [applyOps_append] at h
  rw [hname]
  exact h

/-- C10 witness: registering two same-prefix instances that both declare
the native tool name of the example Telegram tool leaves exactly one
catalog descriptor for `tg_send_message`, routed to the second client. -/
theorem registry_last_wins_witness :
    alistLookup (register_instance
        (register_instance (applyOps []) "tgA" exClientTg "tg_".data)
        "tgB" ⟨"tg_other", [⟨"send_message".data, "schema2"⟩]⟩
        "tg_".data).toolToClient
      ("tg_".data ++ "send_message".data) =
      some ⟨"tg_other", [⟨"send_message".data, "schema2"⟩]⟩ ∧
    countName (register_instance
        (register_instance (applyOps []) "tgA" exClientTg "tg_".data)
        "tgB" ⟨"tg_other", [⟨"send_message".data, "schema2"⟩]⟩ "tg_".data)
      ("tg_".data ++ "send_message".data) = 1 :=
  registry_last_wins.2.2 [] "tgA" "tgB" exClientTg
    ⟨"tg_other", [⟨"send_message".data, "schema2"⟩]⟩ "tg_".data
    exToolSend ⟨"send_message".data, "schema2"⟩
    (by decide) (by decide) (by decide)

/-- A filter never resurrects an absent key. -/
theorem lookup_filter_none_mono {K V : Type} [DecidableEq K]
    (m : List (K × V)) (f : K × V → Bool) (k : K)
    (h : alistLookup m k = none) :
    alistLookup (m.filter f) k = none := by
  rw [alistLookup_eq_none_iff] at h ⊢
  intro p hp
  exact h p (List.mem_of_mem_filter hp)

/-- `_start_instance` never touches the reference counts. -/
theorem startInstance_refcount (deps : ManagerDeps) (st : ManagerState)
    (iid : String) (config : ServerConfig) :
    (startInstance deps st iid config).refcount = st.refcount := by
  rw [startInstance]
  cases deps.connect iid with
  | none => rfl
  | some tools => rfl

/-- `_start_instance` never touches the orphaned stacks. -/
theorem startInstance_orphaned (deps : ManagerDeps) (st : ManagerState)
    (iid : String) (config : ServerConfig) :
    (startInstance deps st iid config).orphaned = st.orphaned := by
  rw [startInstance]
  cases deps.connect iid with
  | none => rfl
  | some tools => rfl

/-- `refAdd` gives the instance the enlarged reference set. -/
theorem refAdd_self (m : List (String × List String)) (iid pid : String) :
    alistLookup (refAdd m iid pid) iid =
      some (match alistLookup m iid with
            | some refs => if pid ∈ refs then refs else refs ++ [pid]
            | none => [pid]) := by
  rw [refAdd]
  cases h : alistLookup m iid with
  | some refs => exact alistLookup_insert_self m iid _
  | none => exact lookup_append_self m iid [pid] h

/-- `refAdd` leaves other instances' reference sets untouched. -/
theorem refAdd_ne (m : List (String × List String)) (iid pid iid2 : String)
    (h : iid2 ≠ iid) :
    alistLookup (refAdd m iid pid) iid2 = alistLookup m iid2 := by
  rw [refAdd]
  cases alistLookup m iid with
  | some refs => exact alistLookup_insert_ne m iid _ iid2 h
  | none => exact lookup_append_ne m iid [pid] iid2 h

/-- Step equation: unknown instance ids are skipped. -/
theorem startProjectStep_eq_none (deps : ManagerDeps) (pid : String)
    (st : ManagerState) (s : String) (h : deps.mcpInstances s = none) :
    startProjectStep deps pid st s = st := by
  rw [startProjectStep, h]

/-- Step equation: known instance ids add the reference and start the
instance only when it is not already running. -/
theorem startProjectStep_eq_some (deps : ManagerDeps) (pid : String)
    (st : ManagerState) (s : String) (config : ServerConfig)
    (h : deps.mcpInstances s = some config) :
    startProjectStep deps pid st s =
      if (alistLookup st.instances s).isSome then
        { st with refcount := refAdd st.refcount s pid }
      else
        startInstance deps
          { st with refcount := refAdd st.refcount s pid } s config := by
  rw [startProjectStep, h]

/-- A `start_project` iteration neither replaces an already-running
shared instance's client nor spawns a new process for it. -/
theorem startProjectStep_shared (deps : ManagerDeps) (pid : String)
    (st : ManagerState) (s iid : String) (c : Client)
    (h : alistLookup st.instances iid = some c) :
    alistLookup (startProjectStep deps pid st s).instances iid = some c ∧
    (startProjectStep deps pid st s).spawned.count iid =
      st.spawned.count iid := by
  cases hc : deps.mcpInstances s with
  | none =>
    rw [startProjectStep_eq_none deps pid st s hc]
    exact ⟨h, rfl⟩
  | some config =>
    rw [startProjectStep_eq_some deps pid st s config hc]
    by_cases hs : (alistLookup st.instances s).isSome
    · rw [if_pos hs]
      exact ⟨h, rfl⟩
    · rw [if_neg hs]
      have hne : s ≠ iid := by
        intro e
        rw [e, h] at hs
        exact hs rfl
      rw [startInstance]
      cases deps.connect s with
      | none => exact ⟨h, rfl⟩
      | some tools =>
        constructor
        · show alistLookup (alistInsert st.instances s ⟨s, tools⟩) iid = some c
          rw [alistLookup_insert_ne _ _ _ _ (fun e => hne e.symm)]
          exact h
        · show (st.spawned ++ [s]).count iid = st.spawned.count iid
          rw [List.count_append]
          have h0 : [s].count iid = 0 := by
            rw [List.count_singleton]
            simp only [beq_iff_eq]
            rw [if_neg hne]
          rw [h0, Nat.add_zero]

/-- A `start_project` iteration for another instance id leaves this
instance's reference set untouched. -/
theorem startProjectStep_refc_ne (deps : ManagerDeps) (pid : String)
    (st : ManagerState) (s iid : String) (h : s ≠ iid) :
    alistLookup (startProjectStep deps pid st s).refcount iid =
      alistLookup st.refcount iid := by
  cases hc : deps.mcpInstances s with
  | none => rw [startProjectStep_eq_none deps pid st s hc]
  | some config =>
    rw [startProjectStep_eq_some deps pid st s config hc]
    by_cases hs : (alistLookup st.instances s).isSome
    · rw [if_pos hs]
      exact refAdd_ne st.refcount s pid iid (fun e => h e.symm)
    · rw [if_neg hs]
      rw [startInstance_refcount]
      exact refAdd_ne st.refcount s pid iid (fun e => h e.symm)

/-- A `start_project` iteration for this instance id (with a known
config) enlarges exactly this project's reference. -/
theorem startProjectStep_refc_self (deps : ManagerDeps) (pid : String)
    (st : ManagerState) (iid : String) (config : ServerConfig)
    (hc : deps.mcpInstances iid = some config) (refs : List String)
    (h : alistLookup st.refcount iid = some refs) :
    alistLookup (startProjectStep deps pid st iid).refcount iid =
      some (if pid ∈ refs then refs else refs ++ [pid]) := by
  rw [startProjectStep_eq_some deps pid st iid config hc]
  have hval : alistLookup (refAdd st.refcount iid pid) iid =
      some (if pid ∈ refs then refs else refs ++ [pid]) := by
    rw [refAdd_self, h]
  by_cases hs : (alistLookup st.instances iid).isSome
  · rw [if_pos hs]
    exact hval
  · rw [if_neg hs]
    rw [startInstance_refcount]
    exact hval

/-- The running-client and spawn-count facts survive the whole
`start_project` fold. -/
theorem startFold_shared (deps : ManagerDeps) (pid iid : String)
    (c : Client) :
    ∀ (services : List String) (st : ManagerState),
      alistLookup st.instances iid = some c →
      alistLookup ((services.foldl (startProjectStep deps pid)
        st)).instances iid = some c ∧
      ((services.foldl (startProjectStep deps pid) st)).spawned.count iid =
        st.spawned.count iid := by
  intro services
  induction services with
  | nil => intro st h; exact ⟨h, rfl⟩
  | cons s rest ih =>
    intro st h
    rw [List.foldl_cons]
    have hstep := startProjectStep_shared deps pid st s iid c h
    have hrest := ih (startProjectStep deps pid st s) hstep.1
    exact ⟨hrest.1, hrest.2.trans hstep.2⟩

/-- A reference set already containing the project is stable across the
whole `start_project` fold. -/
theorem startFold_refc_stable (deps : ManagerDeps) (pid iid : String)
    (refsT : List String) (hpid : pid ∈ refsT) :
    ∀ (services : List String) (st : ManagerState),
      alistLookup st.refcount iid = some refsT →
      alistLookup ((services.foldl (startProjectStep deps pid)
        st)).refcount iid = some refsT := by
  intro services
  induction services with
  | nil => intro st h; exact h
  | cons s rest ih =>
    intro st h
    rw [List.foldl_cons]
    apply ih
    by_cases hne : s = iid
    · subst hne
      cases hc : deps.mcpInstances s with
      | none => rw [startProjectStep, hc]; exact h
      | some config =>
        rw [startProjectStep_refc_self deps pid st s config hc refsT h]
        rw [if_pos hpid]
    · rw [startProjectStep_refc_ne deps pid st s iid hne]
      exact h

/-- Once the fold reaches this instance id, this project's reference is
added and then stays. -/
theorem startFold_refc_processed (deps : ManagerDeps) (pid iid : String)
    (refs0 : List String) :
    ∀ (services : List String) (st : ManagerState),
      alistLookup st.refcount iid = some refs0 →
      iid ∈ services → (deps.mcpInstances iid).isSome →
      alistLookup ((services.foldl (startProjectStep deps pid)
        st)).refcount iid =
        some (if pid ∈ refs0 then refs0 else refs0 ++ [pid]) := by
  intro services
  induction services with
  | nil => intro st _ hmem; simp at hmem
  | cons s rest ih =>
    intro st h hmem hcfg
    rw [List.foldl_cons]
    by_cases hse : s = iid
    · subst hse
      obtain ⟨config, hc⟩ := Option.isSome_iff_exists.mp hcfg
      have hstep := startProjectStep_refc_self deps pid st s config hc refs0 h
      apply startFold_refc_stable deps pid s _ _ rest _ hstep
      by_cases hin : pid ∈ refs0
      · rw [if_pos hin]; exact hin
      · rw [if_neg hin]; exact List.mem_append_right refs0 (List.mem_singleton_self pid)
    · have hmem2 : iid ∈ rest := by
        rcases List.mem_cons.mp hmem with he | hm
        · exact absurd he.symm hse
        · exact hm
      apply ih
      · rw [startProjectStep_refc_ne deps pid st s iid hse]
        exact h
      · exact hmem2
      · exact hcfg

/-- Step equation: a `stop_project` iteration with no reference entry is
a no-op. -/
theorem stopProjectStep_eq_norefs (st : ManagerState) (pid s : String)
    (h : alistLookup st.refcount s = none) :
    stopProjectStep st pid s = st := by
  simp [stopProjectStep, h]

/-- Step equation: an empty reference set is a no-op (the truthiness
guard `if refs:`). -/
theorem stopProjectStep_eq_empty (st : ManagerState) (pid s : String)
    (refs : List String) (h : alistLookup st.refcount s = some refs)
    (he : refs = []) : stopProjectStep st pid s = st := by
  simp [stopProjectStep, h, he]

/-- Step equation: with other references remaining, only this project's
reference is discarded. -/
theorem stopProjectStep_eq_keep (st : ManagerState) (pid s : String)
    (refs : List String) (h : alistLookup st.refcount s = some refs)
    (hne : ¬ refs = []) (hz : ¬ refs.erase pid = []) :
    stopProjectStep st pid s =
      { st with refcount := alistInsert st.refcount s (refs.erase pid) } := by
  simp [stopProjectStep, h, hne, hz]

/-- Step equation: the last reference tears the instance down. -/
theorem stopProjectStep_eq_tear (st : ManagerState) (pid s : String)
    (refs : List String) (c : Client)
    (h : alistLookup st.refcount s = some refs) (hne : ¬ refs = [])
    (hz : refs.erase pid = []) (hc : alistLookup st.instances s = some c) :
    stopProjectStep st pid s =
      { st with
          refcount := alistErase st.refcount s
          instances := alistErase st.instances s
          registry := unregister_instance st.registry s
          orphaned := st.orphaned ++ [s] } := by
  simp [stopProjectStep, h, hne, hz, hc]

/-- Step equation: the last reference of an instance with no client only
drops the reference entry. -/
theorem stopProjectStep_eq_tear_noclient (st : ManagerState) (pid s : String)
    (refs : List String) (h : alistLookup st.refcount s = some refs)
    (hne : ¬ refs = []) (hz : refs.erase pid = [])
    (hc : alistLookup st.instances s = none) :
    stopProjectStep st pid s =
      { st with refcount := alistErase st.refcount s } := by
  simp [stopProjectStep, h, hne, hz, hc]

/-- Unregistering one instance leaves other instances' registry entries
in place. -/
theorem unregister_instances_ne (reg : Registry) (s iid : String)
    (h : iid ≠ s) :
    alistLookup (unregister_instance reg s).instances iid =
      alistLookup reg.instances iid := by
  rw [unregister_instance]
  cases he : alistLookup reg.instances s with
  | none => rfl
  | some entry =>
    show alistLookup (alistErase reg.instances s) iid = _
    exact alistLookup_erase_ne reg.instances s iid h

/-- Unregistering never resurrects an unroutable tool name. -/
theorem unregister_ttc_none (reg : Registry) (s : String) (n : TName)
    (h : alistLookup reg.toolToClient n = none) :
    alistLookup (unregister_instance reg s).toolToClient n = none := by
  rw [unregister_instance]
  cases he : alistLookup reg.instances s with
  | none => exact h
  | some entry =>
    show alistLookup (reg.toolToClient.filter
      (fun p => p.1 ∉ entry.2.2.map (fun m => entry.2.1 ++ m))) n = none
    exact lookup_filter_none_mono _ _ _ h

/-- Unregistering only removes catalog descriptors. -/
theorem unregister_allTools_sub (reg : Registry) (s : String) :
    ∀ t ∈ (unregister_instance reg s).allTools, t ∈ reg.allTools := by
  rw [unregister_instance]
  cases he : alistLookup reg.instances s with
  | none => exact fun t ht => ht
  | some entry =>
    intro t ht
    have ht2 : t ∈ reg.allTools.filter
        (fun d => d.name ∉ entry.2.2.map (fun m => entry.2.1 ++ m)) := ht
    exact List.mem_of_mem_filter ht2

/-- A `stop_project` iteration for another instance id leaves this
instance's client entry untouched. -/
theorem stopStep_instances_ne (st : ManagerState) (pid s iid : String)
    (h : s ≠ iid) :
    alistLookup (stopProjectStep st pid s).instances iid =
      alistLookup st.instances iid := by
  cases hr : alistLookup st.refcount s with
  | none => rw [stopProjectStep_eq_norefs st pid s hr]
  | some refs =>
    by_cases he : refs = []
    · rw [stopProjectStep_eq_empty st pid s refs hr he]
    · by_cases hz : refs.erase pid = []
      · cases hc : alistLookup st.instances s with
        | some c =>
          rw [stopProjectStep_eq_tear st pid s refs c hr he hz hc]
          exact alistLookup_erase_ne st.instances s iid (fun e => h e.symm)
        | none =>
          rw [stopProjectStep_eq_tear_noclient st pid s refs hr he hz hc]
      · rw [stopProjectStep_eq_keep st pid s refs hr he hz]

/-- A `stop_project` iteration for another instance id leaves this
instance's reference set untouched. -/
theorem stopStep_refc_ne (st : ManagerState) (pid s iid : String)
    (h : s ≠ iid) :
    alistLookup (stopProjectStep st pid s).refcount iid =
      alistLookup st.refcount iid := by
  cases hr : alistLookup st.refcount s with
  | none => rw [stopProjectStep_eq_norefs st pid s hr]
  | some refs =>
    by_cases he : refs = []
    · rw [stopProjectStep_eq_empty st pid s refs hr he]
    · by_cases hz : refs.erase pid = []
      · cases hc : alistLookup st.instances s with
        | some c =>
          rw [stopProjectStep_eq_tear st pid s refs c hr he hz hc]
          exact alistLookup_erase_ne st.refcount s iid (fun e => h e.symm)
        | none =>
          rw [stopProjectStep_eq_tear_noclient st pid s refs hr he hz hc]
          exact alistLookup_erase_ne st.refcount s iid (fun e => h e.symm)
      · rw [stopProjectStep_eq_keep st pid s refs hr he hz]
        exact alistLookup_insert_ne st.refcount s _ iid (fun e => h e.symm)

/-- A `stop_project` iteration for another instance id leaves this
instance's registry entry untouched. -/
theorem stopStep_reginst_ne (st : ManagerState) (pid s iid : String)
    (h : s ≠ iid) :
    alistLookup (stopProjectStep st pid s).registry.instances iid =
      alistLookup st.registry.instances iid := by
  cases hr : alistLookup st.refcount s with
  | none => rw [stopProjectStep_eq_norefs st pid s hr]
  | some refs =>
    by_cases he : refs = []
    · rw [stopProjectStep_eq_empty st pid s refs hr he]
    · by_cases hz : refs.erase pid = []
      · cases hc : alistLookup st.instances s with
        | some c =>
          rw [stopProjectStep_eq_tear st pid s refs c hr he hz hc]
          exact unregister_instances_ne st.registry s iid (fun e => h e.symm)
        | none =>
          rw [stopProjectStep_eq_tear_noclient st pid s refs hr he hz hc]
      · rw [stopProjectStep_eq_keep st pid s refs hr he hz]

/-- A `stop_project` iteration can only add orphaned stacks. -/
theorem stopStep_orphaned_mono (st : ManagerState) (pid s iid : String)
    (h : iid ∈ st.orphaned) : iid ∈ (stopProjectStep st pid s).orphaned := by
  cases hr : alistLookup st.refcount s with
  | none => rw [stopProjectStep_eq_norefs st pid s hr]; exact h
  | some refs =>
    by_cases he : refs = []
    · rw [stopProjectStep_eq_empty st pid s refs hr he]; exact h
    · by_cases hz : refs.erase pid = []
      · cases hc : alistLookup st.instances s with
        | some c =>
          rw [stopProjectStep_eq_tear st pid s refs c hr he hz hc]
          exact List.mem_append_left _ h
        | none =>
          rw [stopProjectStep_eq_tear_noclient st pid s refs hr he hz hc]
          exact h
      · rw [stopProjectStep_eq_keep st pid s refs hr he hz]
        exact h

/-- A `stop_project` iteration never resurrects an unroutable tool
name. -/
theorem stopStep_ttc_none (st : ManagerState) (pid s : String) (n : TName)
    (h : alistLookup st.registry.toolToClient n = none) :
    alistLookup (stopProjectStep st pid s).registry.toolToClient n = none := by
  cases hr : alistLookup st.refcount s with
  | none => rw [stopProjectStep_eq_norefs st pid s hr]; exact h
  | some refs =>
    by_cases he : refs = []
    · rw [stopProjectStep_eq_empty st pid s refs hr he]; exact h
    · by_cases hz : refs.erase pid = []
      · cases hc : alistLookup st.instances s with
        | some c =>
          rw [stopProjectStep_eq_tear st pid s refs c hr he hz hc]
          exact unregister_ttc_none st.registry s n h
        | none =>
          rw [stopProjectStep_eq_tear_noclient st pid s refs hr he hz hc]
          exact h
      · rw [stopProjectStep_eq_keep st pid s refs hr he hz]
        exact h

/-- A `stop_project` iteration only removes catalog descriptors. -/
theorem stopStep_allTools_sub (st : ManagerState) (pid s : String) :
    ∀ t ∈ (stopProjectStep st pid s).registry.allTools,
      t ∈ st.registry.allTools := by
  cases hr : alistLookup st.refcount s with
  | none => rw [stopProjectStep_eq_norefs st pid s hr]; exact fun t ht => ht
  | some refs =>
    by_cases he : refs = []
    · rw [stopProjectStep_eq_empty st pid s refs hr he]; exact fun t ht => ht
    · by_cases hz : refs.erase pid = []
      · cases hc : alistLookup st.instances s with
        | some c =>
          rw [stopProjectStep_eq_tear st pid s refs c hr he hz hc]
          exact unregister_allTools_sub st.registry s
        | none =>
          rw [stopProjectStep_eq_tear_noclient st pid s refs hr he hz hc]
          exact fun t ht => ht
      · rw [stopProjectStep_eq_keep st pid s refs hr he hz]
        exact fun t ht => ht

/-- A torn-down instance stays torn down through further `stop_project`
iterations. -/
theorem stopStep_torn_mono (st : ManagerState) (pid s iid : String)
    (pnames : List TName) (h : tornState st iid pnames) :
    tornState (stopProjectStep st pid s) iid pnames := by
  by_cases hse : s = iid
  · subst hse
    rw [stopProjectStep_eq_norefs st pid s h.2.1]
    exact h
  · refine ⟨?_, ?_, ?_, ?_, ?_, ?_⟩
    · rw [stopStep_instances_ne st pid s iid hse]; exact h.1
    · rw [stopStep_refc_ne st pid s iid hse]; exact h.2.1
    · rw [stopStep_reginst_ne st pid s iid hse]; exact h.2.2.1
    · exact stopStep_orphaned_mono st pid s iid h.2.2.2.1
    · intro n hn
      exact stopStep_ttc_none st pid s n (h.2.2.2.2.1 n hn)
    · intro t ht
      exact h.2.2.2.2.2 t (stopStep_allTools_sub st pid s t ht)

/-- A torn-down instance stays torn down through the whole
`stop_project` fold. -/
theorem stopFold_torn (pid iid : String) (pnames : List TName) :
    ∀ (services : List String) (st : ManagerState),
      tornState st iid pnames →
      tornState
        ((services.foldl (fun acc s => stopProjectStep acc pid s) st)) iid
        pnames := by
  intro services
  induction services with
  | nil => intro st h; exact h
  | cons s rest ih =>
    intro st h
    rw [List.foldl_cons]
    exact ih (stopProjectStep st pid s) (stopStep_torn_mono st pid s iid pnames h)

/-- A `stop_project` iteration at this instance id with other references
remaining only rewrites the reference set. -/
theorem stopStep_keep_self (st : ManagerState) (pid iid : String)
    (refs : List String) (q : String)
    (hr : alistLookup st.refcount iid = some refs) (hq : q ∈ refs)
    (hqp : q ≠ pid) :
    stopProjectStep st pid iid =
      { st with refcount := alistInsert st.refcount iid (refs.erase pid) } := by
  have hne : ¬ refs = [] := List.ne_nil_of_mem hq
  have hz : ¬ refs.erase pid = [] :=
    List.ne_nil_of_mem ((List.mem_erase_of_ne hqp).mpr hq)
  exact stopProjectStep_eq_keep st pid iid refs hr hne hz

/-- Through the whole `stop_project` fold, an instance referenced by
another project keeps its client, its registry entry, and a reference
set that is the original one or the original one without this project. -/
theorem stopFold_part2_pres (pid iid : String) (refs : List String)
    (q : String) (hnd : refs.Nodup) (hq : q ∈ refs) (hqp : q ≠ pid) :
    ∀ (services : List String) (st : ManagerState),
      (alistLookup st.refcount iid = some refs ∨
        alistLookup st.refcount iid = some (refs.erase pid)) →
      alistLookup ((services.foldl (fun acc s => stopProjectStep acc pid s)
        st)).instances iid = alistLookup st.instances iid ∧
      alistLookup ((services.foldl (fun acc s => stopProjectStep acc pid s)
        st)).registry.instances iid =
        alistLookup st.registry.instances iid ∧
      (alistLookup ((services.foldl (fun acc s => stopProjectStep acc pid s)
          st)).refcount iid = some refs ∨
        alistLookup ((services.foldl (fun acc s => stopProjectStep acc pid s)
          st)).refcount iid = some (refs.erase pid)) := by
  have herase2 : (refs.erase pid).erase pid = refs.erase pid := by
    apply List.erase_of_not_mem
    intro hmem
    exact ((hnd.mem_erase_iff).mp hmem).1 rfl
  have hq2 : q ∈ refs.erase pid := (List.mem_erase_of_ne hqp).mpr hq
  intro services
  induction services with
  | nil => intro st h; exact ⟨rfl, rfl, h⟩
  | cons s rest ih =>
    intro st h
    rw [List.foldl_cons]
    by_cases hse : s = iid
    · subst hse
      rcases h with h1 | h1
      · have hstep := stopStep_keep_self st pid s refs q h1 hq hqp
        rw [hstep]
        have hrest := ih { st with
          refcount := alistInsert st.refcount s (refs.erase pid) }
          (Or.inr (alistLookup_insert_self st.refcount s (refs.erase pid)))
        exact hrest
      · have hstep := stopStep_keep_self st pid s (refs.erase pid) q h1 hq2 hqp
        rw [hstep, herase2]
        have hrest := ih { st with
          refcount := alistInsert st.refcount s (refs.erase pid) }
          (Or.inr (alistLookup_insert_self st.refcount s (refs.erase pid)))
        exact hrest
    · have hi := stopStep_instances_ne st pid s iid hse
      have hrg := stopStep_reginst_ne st pid s iid hse
      have hrc := stopStep_refc_ne st pid s iid hse
      have hrest := ih (stopProjectStep st pid s) (by rw [hrc]; exact h)
      exact ⟨hrest.1.trans hi, hrest.2.1.trans hrg, hrest.2.2⟩

/-- Once this project's reference has been discarded, the reference set
stays discarded through the rest of the fold. -/
theorem stopFold_erase_stable (pid iid : String) (refs : List String)
    (q : String) (hnd : refs.Nodup) (hq : q ∈ refs) (hqp : q ≠ pid) :
    ∀ (services : List String) (st : ManagerState),
      alistLookup st.refcount iid = some (refs.erase pid) →
      alistLookup ((services.foldl (fun acc s => stopProjectStep acc pid s)
        st)).refcount iid = some (refs.erase pid) := by
  have herase2 : (refs.erase pid).erase pid = refs.erase pid := by
    apply List.erase_of_not_mem
    intro hmem
    exact ((hnd.mem_erase_iff).mp hmem).1 rfl
  have hq2 : q ∈ refs.erase pid := (List.mem_erase_of_ne hqp).mpr hq
  intro services
  induction services with
  | nil => intro st h; exact h
  | cons s rest ih =>
    intro st h
    rw [List.foldl_cons]
    by_cases hse : s = iid
    · subst hse
      have hstep := stopStep_keep_self st pid s (refs.erase pid) q h hq2 hqp
      rw [hstep, herase2]
      exact ih _ (alistLookup_insert_self st.refcount s (refs.erase pid))
    · apply ih
      rw [stopStep_refc_ne st pid s iid hse]
      exact h

/-- Once the fold reaches this instance id, this project's reference is
discarded and then stays discarded. -/
theorem stopFold_part2_processed (pid iid : String) (refs : List String)
    (q : String) (hnd : refs.Nodup) (hq : q ∈ refs) (hqp : q ≠ pid) :
    ∀ (services : List String) (st : ManagerState),
      alistLookup st.refcount iid = some refs →
      iid ∈ services →
      alistLookup ((services.foldl (fun acc s => stopProjectStep acc pid s)
        st)).refcount iid = some (refs.erase pid) := by
  intro services
  induction services with
  | nil => intro st _ hmem; simp at hmem
  | cons s rest ih =>
    intro st h hmem
    rw [List.foldl_cons]
    by_cases hse : s = iid
    · subst hse
      have hstep := stopStep_keep_self st pid s refs q h hq hqp
      rw [hstep]
      exact stopFold_erase_stable pid s refs q hnd hq hqp rest _
        (alistLookup_insert_self st.refcount s (refs.erase pid))
    · have hmem2 : iid ∈ rest := by
        rcases List.mem_cons.mp hmem with he | hm
        · exact absurd he.symm hse
        · exact hm
      apply ih _ _ hmem2
      rw [stopStep_refc_ne st pid s iid hse]
      exact h

/-- Unregistering an instance with a known registry entry removes the
entry, all routing for its namespaced names, and their descriptors. -/
theorem unregister_self_facts (reg : Registry) (iid : String)
    (entry : Client × TName × List TName)
    (h : alistLookup reg.instances iid = some entry) :
    alistLookup (unregister_instance reg iid).instances iid = none ∧
    (∀ n ∈ entry.2.2.map (fun m => entry.2.1 ++ m),
      alistLookup (unregister_instance reg iid).toolToClient n = none) ∧
    (∀ t ∈ (unregister_instance reg iid).allTools,
      t.name ∉ entry.2.2.map (fun m => entry.2.1 ++ m)) := by
  rw [unregister_instance, h]
  refine ⟨?_, ?_, ?_⟩
  · show alistLookup (alistErase reg.instances iid) iid = none
    exact alistLookup_erase_self reg.instances iid
  · intro n hn
    show alistLookup (reg.toolToClient.filter
      (fun p => p.1 ∉ entry.2.2.map (fun m => entry.2.1 ++ m))) n = none
    exact lookup_filterKeys_none reg.toolToClient _ n hn
  · intro t ht
    have ht2 : t ∈ reg.allTools.filter
        (fun d => d.name ∉ entry.2.2.map (fun m => entry.2.1 ++ m)) := ht
    have := List.of_mem_filter ht2
    simpa using this

/-- Dropping the last reference inside the fold tears the instance down,
and it stays torn down. -/
theorem stopFold_part3 (pid iid : String) (c : Client)
    (entry : Client × TName × List TName) :
    ∀ (services : List String) (st : ManagerState),
      alistLookup st.refcount iid = some [pid] →
      alistLookup st.instances iid = some c →
      alistLookup st.registry.instances iid = some entry →
      iid ∈ services →
      tornState
        ((services.foldl (fun acc s => stopProjectStep acc pid s) st)) iid
        (entry.2.2.map (fun m => entry.2.1 ++ m)) := by
  intro services
  induction services with
  | nil => intro st _ _ _ hmem; simp at hmem
  | cons s rest ih =>
    intro st hr hc hreg hmem
    rw [List.foldl_cons]
    by_cases hse : s = iid
    · subst hse
      have hne : ¬ [pid] = [] := by simp
      have hz : ([pid]).erase pid = [] := List.erase_cons_head pid []
      have hstep := stopProjectStep_eq_tear st pid s [pid] c hr hne hz hc
      rw [hstep]
      apply stopFold_torn
      have hun := unregister_self_facts st.registry s entry hreg
      refine ⟨?_, ?_, ?_, ?_, ?_, ?_⟩
      · show alistLookup (alistErase st.instances s) s = none
        exact alistLookup_erase_self st.instances s
      · show alistLookup (alistErase st.refcount s) s = none
        exact alistLookup_erase_self st.refcount s
      · exact hun.1
      · show s ∈ st.orphaned ++ [s]
        exact List.mem_append_right _ (List.mem_singleton_self s)
      · exact hun.2.1
      · exact hun.2.2
    · have hmem2 : iid ∈ rest := by
        rcases List.mem_cons.mp hmem with he | hm
        · exact absurd he.symm hse
        · exact hm
      apply ih
      · rw [stopStep_refc_ne st pid s iid hse]; exact hr
      · rw [stopStep_instances_ne st pid s iid hse]; exact hc
      · rw [stopStep_reginst_ne st pid s iid hse]; exact hreg
      · exact hmem2

/-- C4: the supervisor keeps at most one live process per instance id.
Starting a project whose services include an already-running instance
keeps the same client, spawns no new process for it, and only adds that
project's reference; stopping a project while another project still
references the instance keeps the client and registry entry and only
removes the stopping project's reference; and stopping the project
holding the last reference removes the client, the reference entry and
the registry entry, unregisters all the instance's namespaced tools, and
orphans its exit stack for teardown. -/
theorem refcounted_sharing :
    (∀ (deps : ManagerDeps) (st : ManagerState) (pid : String)
        (services : List String) (iid : String) (c : Client)
        (refs0 : List String),
        alistLookup st.instances iid = some c →
        alistLookup st.refcount iid = some refs0 →
        alistLookup (start_project deps st pid services).instances iid =
          some c ∧
        (start_project deps st pid services).spawned.count iid =
          st.spawned.count iid ∧
        (iid ∈ services → (deps.mcpInstances iid).isSome →
          alistLookup (start_project deps st pid services).refcount iid =
            some (if pid ∈ refs0 then refs0 else refs0 ++ [pid]))) ∧
    (∀ (deps : ManagerDeps) (st : ManagerState) (pid iid : String)
        (refs : List String) (q : String),
        alistLookup st.refcount iid = some refs → refs.Nodup →
        q ∈ refs → q ≠ pid →
        alistLookup (stop_project deps st pid).instances iid =
          alistLookup st.instances iid ∧
        alistLookup (stop_project deps st pid).registry.instances iid =
          alistLookup st.registry.instances iid ∧
        (iid ∈ (deps.projects pid).getD [] →
          alistLookup (stop_project deps st pid).refcount iid =
            some (refs.erase pid))) ∧
    (∀ (deps : ManagerDeps) (st : ManagerState) (pid iid : String)
        (c : Client) (entry : Client × TName × List TName),
        alistLookup st.refcount iid = some [pid] →
        alistLookup st.instances iid = some c →
        alistLookup st.registry.instances iid = some entry →
        iid ∈ (deps.projects pid).getD [] →
        tornState (stop_project deps st pid) iid
          (entry.2.2.map (fun m => entry.2.1 ++ m))) := by
  refine ⟨?_, ?_, ?_⟩
  · intro deps st pid services iid c refs0 hinst hrefc
    have hsh := startFold_shared deps pid iid c services st hinst
    refine ⟨hsh.1, hsh.2, ?_⟩
    intro hmem hcfg
    exact startFold_refc_processed deps pid iid refs0 services st hrefc
      hmem hcfg
  · intro deps st pid iid refs q hrefc hnd hq hqp
    have hpres := stopFold_part2_pres pid iid refs q hnd hq hqp
      ((deps.projects pid).getD []) st (Or.inl hrefc)
    exact ⟨hpres.1, hpres.2.1,
      fun hmem => stopFold_part2_processed pid iid refs q hnd hq hqp
        ((deps.projects pid).getD []) st hrefc hmem⟩
  · intro deps st pid iid c entry hrefc hinst hreg hmem
    exact stopFold_part3 pid iid c entry ((deps.projects pid).getD []) st
      hrefc hinst hreg hmem

/-- C4 witness: with the concrete two-project setup, starting the shared
instance for a second project spawns nothing new and only adds the
reference; stopping p1 leaves the instance running for p2 with its
reference removed; stopping p2 afterwards tears the instance down. -/
theorem refcounted_sharing_witness :
    (alistLookup (start_project exDeps exStarted "p2"
        ["tg_main"]).instances "tg_main" = some ⟨"tg_main", [exToolSend]⟩ ∧
      (start_project exDeps exStarted "p2" ["tg_main"]).spawned.count
        "tg_main" = exStarted.spawned.count "tg_main" ∧
      ("tg_main" ∈ ["tg_main"] →
        (exDeps.mcpInstances "tg_main").isSome →
        alistLookup (start_project exDeps exStarted "p2"
          ["tg_main"]).refcount "tg_main" =
          some (if "p2" ∈ ["p1"] then ["p1"] else ["p1"] ++ ["p2"]))) ∧
    (alistLookup (stop_project exDeps
        (start_project exDeps exStarted "p2" ["tg_main"]) "p1").instances
        "tg_main" =
      alistLookup (start_project exDeps exStarted "p2"
        ["tg_main"]).instances "tg_main") ∧
    tornState
      (stop_project exDeps
        (stop_project exDeps
          (start_project exDeps exStarted "p2" ["tg_main"]) "p1") "p2")
      "tg_main"
      (["send_message".data].map (fun m => "tg_".data ++ m)) :=
  ⟨refcounted_sharing.1 exDeps exStarted "p2" ["tg_main"] "tg_main"
      ⟨"tg_main", [exToolSend]⟩ ["p1"] (by decide) (by decide),
   (refcounted_sharing.2.1 exDeps
      (start_project exDeps exStarted "p2" ["tg_main"]) "p1" "tg_main"
      ["p1", "p2"] "p2" (by decide) (by decide) (by decide)
      (by decide)).1,
   refcounted_sharing.2.2 exDeps
     (stop_project exDeps
       (start_project exDeps exStarted "p2" ["tg_main"]) "p1") "p2"
     "tg_main" ⟨"tg_main", [exToolSend]⟩
     ((⟨"tg_main", [exToolSend]⟩ : Client), "tg_".data,
       ["send_message".data])
     (by decide) (by decide) (by decide) (by decide)⟩

/-- Loop equation: with no rounds left, the for-else finalization call
runs with tools disabled. -/
theorem runLoop_zero_eq (script : Nat → ProviderResponse)
    (execTool : String → String → String) (approvalList : List String)
    (hasTools : Bool) (callIdx : Nat) (messages : List Msg)
    (totalIn totalOut toolCallsCount : Nat) :
    runLoop script execTool approvalList hasTools 0 callIdx messages
      totalIn totalOut toolCallsCount =
      finishRun
        (orDefault (extractText (script callIdx).content)
          "Достигнут лимит итераций.")
        (totalIn + (script callIdx).usage.inputTokens)
        (totalOut + (script callIdx).usage.outputTokens)
        toolCallsCount [Event.apiCall false] := rfl

/-- Loop equation: an over-budget round makes one final tools-disabled
call and finishes. -/
theorem runLoop_succ_budget (script : Nat → ProviderResponse)
    (execTool : String → String → String) (approvalList : List String)
    (hasTools : Bool) (fuel callIdx : Nat) (messages : List Msg)
    (totalIn totalOut toolCallsCount : Nat)
    (h : totalIn + totalOut > MAX_TOKENS_BUDGET) :
    runLoop script execTool approvalList hasTools (fuel + 1) callIdx
      messages totalIn totalOut toolCallsCount =
      finishRun
        (orDefault (extractText (script callIdx).content)
          "Бюджет токенов исчерпан. Вот что удалось выяснить.")
        (totalIn + (script callIdx).usage.inputTokens)
        (totalOut + (script callIdx).usage.outputTokens)
        toolCallsCount [Event.apiCall false] := by
  simp [runLoop, h]

/-- Loop equation: a plain completion extracts the text and finishes. -/
theorem runLoop_succ_endTurn (script : Nat → ProviderResponse)
    (execTool : String → String → String) (approvalList : List String)
    (hasTools : Bool) (fuel callIdx : Nat) (messages : List Msg)
    (totalIn totalOut toolCallsCount : Nat)
    (h : ¬ totalIn + totalOut > MAX_TOKENS_BUDGET)
    (hs : (script callIdx).stopReason = StopReason.endTurn) :
    runLoop script execTool approvalList hasTools (fuel + 1) callIdx
      messages totalIn totalOut toolCallsCount =
      finishRun (extractText (script callIdx).content)
        (totalIn + (script callIdx).usage.inputTokens)
        (totalOut + (script callIdx).usage.outputTokens)
        toolCallsCount [Event.apiCall hasTools] := by
  simp [runLoop, h, hs]

/-- Loop equation: any other stop reason extracts the text and
finishes. -/
theorem runLoop_succ_other (script : Nat → ProviderResponse)
    (execTool : String → String → String) (approvalList : List String)
    (hasTools : Bool) (fuel callIdx : Nat) (messages : List Msg)
    (totalIn totalOut toolCallsCount : Nat)
    (h : ¬ totalIn + totalOut > MAX_TOKENS_BUDGET)
    (hs : (script callIdx).stopReason = StopReason.other) :
    runLoop script execTool approvalList hasTools (fuel + 1) callIdx
      messages totalIn totalOut toolCallsCount =
      finishRun (extractText (script callIdx).content)
        (totalIn + (script callIdx).usage.inputTokens)
        (totalOut + (script callIdx).usage.outputTokens)
        toolCallsCount [Event.apiCall hasTools] := by
  simp [runLoop, h, hs]

/-- Loop equation: a tool_use round whose batch hits a gated tool
persists the user turn and the cost and returns immediately with the
pending approval carrying the current snapshot. -/
theorem runLoop_succ_gated (script : Nat → ProviderResponse)
    (execTool : String → String → String) (approvalList : List String)
    (hasTools : Bool) (fuel callIdx : Nat) (messages : List Msg)
    (totalIn totalOut toolCallsCount : Nat)
    (name input id : String) (evs : List Event) (cnt : Nat)
    (h : ¬ totalIn + totalOut > MAX_TOKENS_BUDGET)
    (hs : (script callIdx).stopReason = StopReason.toolUse)
    (hba : processToolBlocks execTool approvalList toolCallsCount
      (toolUseTriples (script callIdx).content) =
      BatchOutcome.gated name input id evs cnt) :
    runLoop script execTool approvalList hasTools (fuel + 1) callIdx
      messages totalIn totalOut toolCallsCount =
      (⟨extractText (script callIdx).content, cnt,
         totalIn + (script callIdx).usage.inputTokens,
         totalOut + (script callIdx).usage.outputTokens,
         some ⟨name, input, id,
           messages ++ [⟨Role.assistant,
             Content.blocks (serializeContent (script callIdx).content)⟩]⟩⟩,
       Event.apiCall hasTools :: evs ++
         [Event.persistMessage Role.user,
          Event.persistCost (totalIn + (script callIdx).usage.inputTokens)
            (totalOut + (script callIdx).usage.outputTokens)]) := by
  simp [runLoop, h, hs, hba]

/-- Loop equation: a tool_use round whose batch completes appends the
tool results, trims, and continues the loop. -/
theorem runLoop_succ_completed (script : Nat → ProviderResponse)
    (execTool : String → String → String) (approvalList : List String)
    (hasTools : Bool) (fuel callIdx : Nat) (messages : List Msg)
    (totalIn totalOut toolCallsCount : Nat)
    (evs : List Event) (cnt : Nat) (results : List Block)
    (h : ¬ totalIn + totalOut > MAX_TOKENS_BUDGET)
    (hs : (script callIdx).stopReason = StopReason.toolUse)
    (hba : processToolBlocks execTool approvalList toolCallsCount
      (toolUseTriples (script callIdx).content) =
      BatchOutcome.completed evs cnt results) :
    runLoop script execTool approvalList hasTools (fuel + 1) callIdx
      messages totalIn totalOut toolCallsCount =
      ((runLoop script execTool approvalList hasTools fuel (callIdx + 1)
          (trim_messages
            ((messages ++ [⟨Role.assistant,
              Content.blocks (serializeContent (script callIdx).content)⟩]) ++
              [⟨Role.user, Content.blocks results⟩]) 150000)
          (totalIn + (script callIdx).usage.inputTokens)
          (totalOut + (script callIdx).usage.outputTokens) cnt).1,
       Event.apiCall hasTools :: evs ++
         (runLoop script execTool approvalList hasTools fuel (callIdx + 1)
          (trim_messages
            ((messages ++ [⟨Role.assistant,
              Content.blocks (serializeContent (script callIdx).content)⟩]) ++
              [⟨Role.user, Content.blocks results⟩]) 150000)
          (totalIn + (script callIdx).usage.inputTokens)
          (totalOut + (script callIdx).usage.outputTokens) cnt).2) := by
  simp [runLoop, h, hs, hba]

/-- C3: from any loop state whose cumulative input+output usage exceeds
MAX_TOKENS_BUDGET, `AgentCore.run` issues exactly one further provider
call, with tools disabled, performs no tool execution, and terminates
with the accrued turns and cost persisted and no pending approval — so
once usage exceeds the cap at some round there is never another
tool-enabled call and never another tool execution in that run. -/
theorem budget_termination (script : Nat → ProviderResponse)
    (execTool : String → String → String) (approvalList : List String)
    (hasTools : Bool) (fuel callIdx : Nat) (messages : List Msg)
    (totalIn totalOut toolCallsCount : Nat)
    (h : totalIn + totalOut > MAX_TOKENS_BUDGET) :
    runLoop script execTool approvalList hasTools (fuel + 1) callIdx
      messages totalIn totalOut toolCallsCount =
      (⟨orDefault (extractText (script callIdx).content)
          "Бюджет токенов исчерпан. Вот что удалось выяснить.",
        toolCallsCount,
        totalIn + (script callIdx).usage.inputTokens,
        totalOut + (script callIdx).usage.outputTokens, none⟩,
       [Event.apiCall false, Event.persistMessage Role.user,
        Event.persistMessage Role.assistant,
        Event.persistCost (totalIn + (script callIdx).usage.inputTokens)
          (totalOut + (script callIdx).usage.outputTokens)]) ∧
    ((runLoop script execTool approvalList hasTools (fuel + 1) callIdx
        messages totalIn totalOut toolCallsCount).2.filter isApiCallEvent =
      [Event.apiCall false]) ∧
    (∀ n i, Event.toolExec n i ∉
      (runLoop script execTool approvalList hasTools (fuel + 1) callIdx
        messages totalIn totalOut toolCallsCount).2) ∧
    (runLoop script execTool approvalList hasTools (fuel + 1) callIdx
      messages totalIn totalOut toolCallsCount).1.pendingApproval = none := by
  have hmain := runLoop_succ_budget script execTool approvalList hasTools
    fuel callIdx messages totalIn totalOut toolCallsCount h
  rw [finishRun, persistTail] at hmain
  refine ⟨hmain, ?_, ?_, ?_⟩
  · rw [hmain]
    simp [isApiCallEvent]
  · intro n i
    rw [hmain]
    simp
  · rw [hmain]

/-- C3 witness: from a loop state with 60001 tokens accrued (over the
50000 budget), the continuation is exactly one tools-disabled call plus
the persistence writes, with no tool execution and no pending
approval. -/
theorem budget_termination_witness :
    (runLoop exScriptBudget exExec [] true (14 + 1) 1 [] 60000 1 0 =
      (⟨orDefault (extractText (exScriptBudget 1).content)
          "Бюджет токенов исчерпан. Вот что удалось выяснить.",
        0, 60000 + (exScriptBudget 1).usage.inputTokens,
        1 + (exScriptBudget 1).usage.outputTokens, none⟩,
       [Event.apiCall false, Event.persistMessage Role.user,
        Event.persistMessage Role.assistant,
        Event.persistCost (60000 + (exScriptBudget 1).usage.inputTokens)
          (1 + (exScriptBudget 1).usage.outputTokens)])) ∧
    ((runLoop exScriptBudget exExec [] true (14 + 1) 1 [] 60000 1
        0).2.filter isApiCallEvent = [Event.apiCall false]) ∧
    (runLoop exScriptBudget exExec [] true (14 + 1) 1 [] 60000 1
      0).1.pendingApproval = none :=
  ⟨(budget_termination exScriptBudget exExec [] true 14 1 [] 60000 1 0
      (by decide)).1,
   (budget_termination exScriptBudget exExec [] true 14 1 [] 60000 1 0
      (by decide)).2.1,
   (budget_termination exScriptBudget exExec [] true 14 1 [] 60000 1 0
      (by decide)).2.2.2⟩

/-- Batch equation: a batch whose first tool is gated returns immediately
with nothing executed. -/
theorem ptb_cons_hit (execTool : String → String → String)
    (approvalList : List String) (cnt : Nat) (id name input : String)
    (rest : List (String × String × String)) (hap : name ∈ approvalList) :
    processToolBlocks execTool approvalList cnt ((id, name, input) :: rest) =
      BatchOutcome.gated name input id [] cnt := by
  simp [processToolBlocks, hap]

/-- Batch equation: a non-gated tool is executed and logged, then the
rest of a completing batch follows. -/
theorem ptb_cons_completed (execTool : String → String → String)
    (approvalList : List String) (cnt : Nat) (id name input : String)
    (rest : List (String × String × String)) (evs : List Event) (c2 : Nat)
    (results : List Block) (hap : name ∉ approvalList)
    (hrec : processToolBlocks execTool approvalList (cnt + 1) rest =
      BatchOutcome.completed evs c2 results) :
    processToolBlocks execTool approvalList cnt ((id, name, input) :: rest) =
      BatchOutcome.completed
        (Event.toolExec name input :: Event.logToolCall name :: evs) c2
        (Block.toolResult id (truncateStr (execTool name input)) ::
          results) := by
  simp [processToolBlocks, hap, hrec]

/-- Batch equation: a non-gated tool is executed and logged, then the
rest of a gating batch follows. -/
theorem ptb_cons_gated (execTool : String → String → String)
    (approvalList : List String) (cnt : Nat) (id name input : String)
    (rest : List (String × String × String)) (n i tid : String)
    (evs : List Event) (c2 : Nat) (hap : name ∉ approvalList)
    (hrec : processToolBlocks execTool approvalList (cnt + 1) rest =
      BatchOutcome.gated n i tid evs c2) :
    processToolBlocks execTool approvalList cnt ((id, name, input) :: rest) =
      BatchOutcome.gated n i tid
        (Event.toolExec name input :: Event.logToolCall name :: evs) c2 := by
  simp [processToolBlocks, hap, hrec]

/-- No tool whose name is approval-gated is ever executed while
processing a batch. -/
theorem ptb_exec_not_approval (execTool : String → String → String)
    (approvalList : List String) :
    ∀ (triples : List (String × String × String)) (cnt : Nat)
      (n i : String),
      Event.toolExec n i ∈
        batchEvents (processToolBlocks execTool approvalList cnt triples) →
      n ∉ approvalList := by
  intro triples
  induction triples with
  | nil =>
    intro cnt n i hmem
    simp [processToolBlocks, batchEvents] at hmem
  | cons x rest ih =>
    obtain ⟨id, name, input⟩ := x
    intro cnt n i hmem
    by_cases hap : name ∈ approvalList
    · rw [ptb_cons_hit execTool approvalList cnt id name input rest hap]
        at hmem
      simp [batchEvents] at hmem
    · cases hrec : processToolBlocks execTool approvalList (cnt + 1) rest with
      | completed evs c2 results =>
        rw [ptb_cons_completed execTool approvalList cnt id name input rest
          evs c2 results hap hrec] at hmem
        simp only [batchEvents, List.mem_cons] at hmem
        rcases hmem with he | he | hm
        · have hn : n = name := by
            injection he
          rw [hn]; exact hap
        · cases he
        · have hih := ih (cnt + 1) n i
          rw [hrec] at hih
          simp only [batchEvents] at hih
          exact hih hm
      | gated n2 i2 tid2 evs c2 =>
        rw [ptb_cons_gated execTool approvalList cnt id name input rest
          n2 i2 tid2 evs c2 hap hrec] at hmem
        simp only [batchEvents, List.mem_cons] at hmem
        rcases hmem with he | he | hm
        · have hn : n = name := by
            injection he
          rw [hn]; exact hap
        · cases he
        · have hih := ih (cnt + 1) n i
          rw [hrec] at hih
          simp only [batchEvents] at hih
          exact hih hm

/-- A gating batch outcome names an approval-gated tool that was
actually requested in the batch. -/
theorem ptb_gated_mem (execTool : String → String → String)
    (approvalList : List String) :
    ∀ (triples : List (String × String × String)) (cnt : Nat)
      (n i tid : String) (evs : List Event) (c2 : Nat),
      processToolBlocks execTool approvalList cnt triples =
        BatchOutcome.gated n i tid evs c2 →
      (tid, n, i) ∈ triples ∧ n ∈ approvalList := by
  intro triples
  induction triples with
  | nil =>
    intro cnt n i tid evs c2 h
    simp [processToolBlocks] at h
  | cons x rest ih =>
    obtain ⟨id, name, input⟩ := x
    intro cnt n i tid evs c2 h
    by_cases hap : name ∈ approvalList
    · rw [ptb_cons_hit execTool approvalList cnt id name input rest hap] at h
      injection h with h1 h2 h3 h4 h5
      subst h1; subst h2; subst h3
      exact ⟨List.mem_cons_self _ _, hap⟩
    · cases hrec : processToolBlocks execTool approvalList (cnt + 1) rest with
      | completed evs2 c3 results =>
        rw [ptb_cons_completed execTool approvalList cnt id name input rest
          evs2 c3 results hap hrec] at h
        cases h
      | gated n2 i2 tid2 evs2 c3 =>
        rw [ptb_cons_gated execTool approvalList cnt id name input rest
          n2 i2 tid2 evs2 c3 hap hrec] at h
        injection h with h1 h2 h3 h4 h5
        subst h1; subst h2; subst h3
        have := ih (cnt + 1) n2 i2 tid2 evs2 c3 hrec
        exact ⟨List.mem_cons_of_mem _ this.1, this.2⟩

/-- A requested tool_use triple appears as a tool_use block in the
serialized assistant turn. -/
theorem triples_mem_serialize :
    ∀ (content : List Block) (tid n i : String),
      (tid, n, i) ∈ toolUseTriples content →
      Block.toolUse tid n i ∈ serializeContent content := by
  intro content
  induction content with
  | nil => intro tid n i h; simp [toolUseTriples] at h
  | cons b rest ih =>
    intro tid n i h
    cases b with
    | text s =>
      rw [show toolUseTriples (Block.text s :: rest) = toolUseTriples rest
        from rfl] at h
      rw [show serializeContent (Block.text s :: rest) =
        Block.text s :: serializeContent rest from rfl]
      exact List.mem_cons_of_mem _ (ih tid n i h)
    | toolUse id2 n2 i2 =>
      rw [show toolUseTriples (Block.toolUse id2 n2 i2 :: rest) =
        (id2, n2, i2) :: toolUseTriples rest from rfl] at h
      rw [show serializeContent (Block.toolUse id2 n2 i2 :: rest) =
        Block.toolUse id2 n2 i2 :: serializeContent rest from rfl]
      rcases List.mem_cons.mp h with he | hm
      · injection he with he1 he2
        injection he2 with he2 he3
        subst he1; subst he2; subst he3
        exact List.mem_cons_self _ _
      · exact List.mem_cons_of_mem _ (ih tid n i hm)
    | toolResult id2 c2 =>
      rw [show toolUseTriples (Block.toolResult id2 c2 :: rest) =
        toolUseTriples rest from rfl] at h
      rw [show serializeContent (Block.toolResult id2 c2 :: rest) =
        serializeContent rest from rfl]
      exact ih tid n i h

/-- Processing a batch whose first gated tool follows a gate-free
leading segment executes exactly that segment, in order. -/
theorem ptb_first (execTool : String → String → String)
    (approvalList : List String) :
    ∀ (pre : List (String × String × String)) (gid gname ginput : String)
      (post : List (String × String × String)) (cnt : Nat),
      (∀ x ∈ pre, x.2.1 ∉ approvalList) → gname ∈ approvalList →
      processToolBlocks execTool approvalList cnt
        (pre ++ (gid, gname, ginput) :: post) =
        BatchOutcome.gated gname ginput gid
          (pre.flatMap (fun x =>
            [Event.toolExec x.2.1 x.2.2, Event.logToolCall x.2.1]))
          (cnt + pre.length) := by
  intro pre
  induction pre with
  | nil =>
    intro gid gname ginput post cnt _ hg
    rw [List.nil_append]
    rw [ptb_cons_hit execTool approvalList cnt gid gname ginput post hg]
    simp
  | cons x pre2 ih =>
    obtain ⟨id, name, input⟩ := x
    intro gid gname ginput post cnt hpre hg
    have hx : name ∉ approvalList :=
      hpre (id, name, input) (List.mem_cons_self _ _)
    have hrec := ih gid gname ginput post (cnt + 1)
      (fun y hy => hpre y (List.mem_cons_of_mem _ hy)) hg
    rw [List.cons_append]
    rw [ptb_cons_gated execTool approvalList cnt id name input
      (pre2 ++ (gid, gname, ginput) :: post) gname ginput gid _ _ hx hrec]
    simp only [List.flatMap_cons, List.cons_append, List.nil_append,
      List.length_cons]
    congr 1
    omega

/-- No approval-gated tool name is ever executed at any point of the
tool-use loop. -/
theorem runLoop_exec_not_approval (script : Nat → ProviderResponse)
    (execTool : String → String → String) (approvalList : List String)
    (hasTools : Bool) :
    ∀ (fuel callIdx : Nat) (messages : List Msg)
      (totalIn totalOut cnt : Nat) (n i : String),
      Event.toolExec n i ∈
        (runLoop script execTool approvalList hasTools fuel callIdx
          messages totalIn totalOut cnt).2 →
      n ∉ approvalList := by
  intro fuel
  induction fuel with
  | zero =>
    intro callIdx messages ti tOut cnt n i hmem
    rw [runLoop_zero_eq] at hmem
    simp [finishRun, persistTail] at hmem
  | succ fuel ih =>
    intro callIdx messages ti tOut cnt n i hmem
    by_cases hb : ti + tOut > MAX_TOKENS_BUDGET
    · rw [runLoop_succ_budget script execTool approvalList hasTools fuel
        callIdx messages ti tOut cnt hb] at hmem
      simp [finishRun, persistTail] at hmem
    · cases hs : (script callIdx).stopReason with
      | endTurn =>
        rw [runLoop_succ_endTurn script execTool approvalList hasTools fuel
          callIdx messages ti tOut cnt hb hs] at hmem
        simp [finishRun, persistTail] at hmem
      | other =>
        rw [runLoop_succ_other script execTool approvalList hasTools fuel
          callIdx messages ti tOut cnt hb hs] at hmem
        simp [finishRun, persistTail] at hmem
      | toolUse =>
        cases hba : processToolBlocks execTool approvalList cnt
            (toolUseTriples (script callIdx).content) with
        | gated name input id evs c2 =>
          rw [runLoop_succ_gated script execTool approvalList hasTools fuel
            callIdx messages ti tOut cnt name input id evs c2 hb hs hba]
            at hmem
          simp [List.mem_cons, List.mem_append] at hmem
          have hptb := ptb_exec_not_approval execTool approvalList
            (toolUseTriples (script callIdx).content) cnt n i
          rw [hba] at hptb
          simp only [batchEvents] at hptb
          exact hptb hmem
        | completed evs c2 results =>
          rw [runLoop_succ_completed script execTool approvalList hasTools
            fuel callIdx messages ti tOut cnt evs c2 results hb hs hba]
            at hmem
          simp [List.mem_cons, List.mem_append] at hmem
          rcases hmem with hm | hm
          · have hptb := ptb_exec_not_approval execTool approvalList
              (toolUseTriples (script callIdx).content) cnt n i
            rw [hba] at hptb
            simp only [batchEvents] at hptb
            exact hptb hm
          · exact ih (callIdx + 1) _ _ _ _ n i hm

/-- Whenever the loop returns with a pending approval, the gated tool is
approval-listed, the snapshot ends with the assistant turn that
requested it, and the trace ends with the user turn and the accrued cost
persisted. -/
theorem runLoop_pending_facts (script : Nat → ProviderResponse)
    (execTool : String → String → String) (approvalList : List String)
    (hasTools : Bool) :
    ∀ (fuel callIdx : Nat) (messages : List Msg) (ti tOut cnt : Nat)
      (p : PendingApproval),
      (runLoop script execTool approvalList hasTools fuel callIdx messages
        ti tOut cnt).1.pendingApproval = some p →
      p.toolName ∈ approvalList ∧
      (∃ ms bs, p.messagesSnapshot =
          ms ++ [⟨Role.assistant, Content.blocks bs⟩] ∧
        Block.toolUse p.toolUseId p.toolName p.toolInput ∈ bs) ∧
      (∃ l, (runLoop script execTool approvalList hasTools fuel callIdx
          messages ti tOut cnt).2 =
        l ++ [Event.persistMessage Role.user,
          Event.persistCost
            (runLoop script execTool approvalList hasTools fuel callIdx
              messages ti tOut cnt).1.tokensInput
            (runLoop script execTool approvalList hasTools fuel callIdx
              messages ti tOut cnt).1.tokensOutput]) := by
  intro fuel
  induction fuel with
  | zero =>
    intro callIdx messages ti tOut cnt p hp
    rw [runLoop_zero_eq] at hp
    simp [finishRun] at hp
  | succ fuel ih =>
    intro callIdx messages ti tOut cnt p hp
    by_cases hb : ti + tOut > MAX_TOKENS_BUDGET
    · rw [runLoop_succ_budget script execTool approvalList hasTools fuel
        callIdx messages ti tOut cnt hb] at hp
      simp [finishRun] at hp
    · cases hs : (script callIdx).stopReason with
      | endTurn =>
        rw [runLoop_succ_endTurn script execTool approvalList hasTools fuel
          callIdx messages ti tOut cnt hb hs] at hp
        simp [finishRun] at hp
      | other =>
        rw [runLoop_succ_other script execTool approvalList hasTools fuel
          callIdx messages ti tOut cnt hb hs] at hp
        simp [finishRun] at hp
      | toolUse =>
        cases hba : processToolBlocks execTool approvalList cnt
            (toolUseTriples (script callIdx).content) with
        | gated name input id evs c2 =>
          have heq := runLoop_succ_gated script execTool approvalList
            hasTools fuel callIdx messages ti tOut cnt name input id evs c2
            hb hs hba
          rw [heq] at hp
          simp only [Option.some.injEq] at hp
          have hmem := ptb_gated_mem execTool approvalList
            (toolUseTriples (script callIdx).content) cnt name input id
            evs c2 hba
          rw [heq]
          refine ⟨?_, ?_, ?_⟩
          · rw [← hp]
            exact hmem.2
          · rw [← hp]
            refine ⟨messages, serializeContent (script callIdx).content,
              rfl, ?_⟩
            exact triples_mem_serialize (script callIdx).content id name
              input hmem.1
          · refine ⟨Event.apiCall hasTools :: evs, ?_⟩
            rw [List.cons_append]
        | completed evs c2 results =>
          have heq := runLoop_succ_completed script execTool approvalList
            hasTools fuel callIdx messages ti tOut cnt evs c2 results hb hs
            hba
          rw [heq] at hp
          have hrec := ih (callIdx + 1)
            (trim_messages
              ((messages ++ [⟨Role.assistant,
                Content.blocks (serializeContent (script callIdx).content)⟩]) ++
                [⟨Role.user, Content.blocks results⟩]) 150000)
            (ti + (script callIdx).usage.inputTokens)
            (tOut + (script callIdx).usage.outputTokens) c2 p hp
          rw [heq]
          refine ⟨hrec.1, hrec.2.1, ?_⟩
          obtain ⟨l, hl⟩ := hrec.2.2
          refine ⟨Event.apiCall hasTools :: evs ++ l, ?_⟩
          rw [hl]
          simp [List.append_assoc]

/-- C1: the tool-use loop never auto-executes a tool whose name is in
the phase policy's approval-required set (whatever tools list was passed
tOut the provider); whenever a run returns with a pending approval, the
gated tool is approval-listed, the snapshot includes the assistant turn
carrying its tool_use block, and the accrued user turn and cost were
persisted before returning; and a tool_use round whose requested batch
contains a gated tool executes exactly the gate-free tools requested
before it and then returns immediately — with the pending approval
carrying the tool name, input, tool_use id and the snapshot ending in
the requesting assistant turn — performing no further provider call. -/
theorem approval_gating :
    (∀ (script : Nat → ProviderResponse)
        (execTool : String → String → String) (approvalList : List String)
        (hasTools : Bool) (messages0 : List Msg) (n i : String),
        Event.toolExec n i ∈
          (runAgent script execTool approvalList hasTools messages0).2 →
        n ∉ approvalList) ∧
    (∀ (script : Nat → ProviderResponse)
        (execTool : String → String → String) (approvalList : List String)
        (hasTools : Bool) (messages0 : List Msg) (p : PendingApproval),
        (runAgent script execTool approvalList hasTools
          messages0).1.pendingApproval = some p →
        p.toolName ∈ approvalList ∧
        (∃ ms bs, p.messagesSnapshot =
            ms ++ [⟨Role.assistant, Content.blocks bs⟩] ∧
          Block.toolUse p.toolUseId p.toolName p.toolInput ∈ bs) ∧
        (∃ l, (runAgent script execTool approvalList hasTools messages0).2 =
          l ++ [Event.persistMessage Role.user,
            Event.persistCost
              (runAgent script execTool approvalList hasTools
                messages0).1.tokensInput
              (runAgent script execTool approvalList hasTools
                messages0).1.tokensOutput])) ∧
    (∀ (script : Nat → ProviderResponse)
        (execTool : String → String → String) (approvalList : List String)
        (hasTools : Bool) (fuel callIdx : Nat) (messages : List Msg)
        (ti tOut cnt : Nat) (pre : List (String × String × String))
        (gid gname ginput : String)
        (post : List (String × String × String)),
        ¬ ti + tOut > MAX_TOKENS_BUDGET →
        (script callIdx).stopReason = StopReason.toolUse →
        toolUseTriples (script callIdx).content =
          pre ++ (gid, gname, ginput) :: post →
        (∀ x ∈ pre, x.2.1 ∉ approvalList) →
        gname ∈ approvalList →
        runLoop script execTool approvalList hasTools (fuel + 1) callIdx
          messages ti tOut cnt =
          (⟨extractText (script callIdx).content, cnt + pre.length,
             ti + (script callIdx).usage.inputTokens,
             tOut + (script callIdx).usage.outputTokens,
             some ⟨gname, ginput, gid,
               messages ++ [⟨Role.assistant, Content.blocks
                 (serializeContent (script callIdx).content)⟩]⟩⟩,
           Event.apiCall hasTools ::
             pre.flatMap (fun x =>
               [Event.toolExec x.2.1 x.2.2, Event.logToolCall x.2.1]) ++
             [Event.persistMessage Role.user,
              Event.persistCost (ti + (script callIdx).usage.inputTokens)
                (tOut + (script callIdx).usage.outputTokens)])) := by
  refine ⟨?_, ?_, ?_⟩
  · intro script execTool approvalList hasTools messages0 n i hmem
    rw [runAgent] at hmem
    exact runLoop_exec_not_approval script execTool approvalList hasTools
      MAX_TOOL_ITERATIONS 0 messages0 0 0 0 n i hmem
  · intro script execTool approvalList hasTools messages0 p hp
    rw [runAgent] at hp ⊢
    exact runLoop_pending_facts script execTool approvalList hasTools
      MAX_TOOL_ITERATIONS 0 messages0 0 0 0 p hp
  · intro script execTool approvalList hasTools fuel callIdx messages ti tOut
      cnt pre gid gname ginput post hb hs hsplit hpre hg
    have hba : processToolBlocks execTool approvalList cnt
        (toolUseTriples (script callIdx).content) =
        BatchOutcome.gated gname ginput gid
          (pre.flatMap (fun x =>
            [Event.toolExec x.2.1 x.2.2, Event.logToolCall x.2.1]))
          (cnt + pre.length) := by
      rw [hsplit]
      exact ptb_first execTool approvalList pre gid gname ginput post cnt
        hpre hg
    exact runLoop_succ_gated script execTool approvalList hasTools fuel
      callIdx messages ti tOut cnt gname ginput gid _ _ hb hs hba

/-- C1 witness: in the concrete gated run, the read tool executed before
the gated one is not approval-listed, the run returns a pending approval
for `send_email` carrying its input, tool_use id and the requesting
assistant turn, and the first round of the loop returns immediately after
executing only the leading gate-free tool. -/
theorem approval_gating_witness :
    "read_email" ∉ ["send_email"] ∧
    ("send_email" ∈ ["send_email"] ∧
      (∃ ms bs, (PendingApproval.mk "send_email" "argsB" "id2"
          [⟨Role.assistant, Content.blocks
            (serializeContent (exScriptGated 0).content)⟩]).messagesSnapshot =
          ms ++ [⟨Role.assistant, Content.blocks bs⟩] ∧
        Block.toolUse "id2" "send_email" "argsB" ∈ bs) ∧
      (∃ l, (runAgent exScriptGated exExec ["send_email"] true []).2 =
        l ++ [Event.persistMessage Role.user,
          Event.persistCost
            (runAgent exScriptGated exExec ["send_email"] true
              []).1.tokensInput
            (runAgent exScriptGated exExec ["send_email"] true
              []).1.tokensOutput])) ∧
    runLoop exScriptGated exExec ["send_email"] true (14 + 1) 0 [] 0 0 0 =
      (⟨extractText (exScriptGated 0).content, 0 + [("id1", "read_email",
          "argsA")].length,
         0 + (exScriptGated 0).usage.inputTokens,
         0 + (exScriptGated 0).usage.outputTokens,
         some ⟨"send_email", "argsB", "id2",
           [] ++ [⟨Role.assistant, Content.blocks
             (serializeContent (exScriptGated 0).content)⟩]⟩⟩,
       Event.apiCall true ::
         [("id1", "read_email", "argsA")].flatMap (fun x =>
           [Event.toolExec x.2.1 x.2.2, Event.logToolCall x.2.1]) ++
         [Event.persistMessage Role.user,
          Event.persistCost (0 + (exScriptGated 0).usage.inputTokens)
            (0 + (exScriptGated 0).usage.outputTokens)]) := by
  have hpend : (runAgent exScriptGated exExec ["send_email"] true
      []).1.pendingApproval =
      some (PendingApproval.mk "send_email" "argsB" "id2"
        [⟨Role.assistant, Content.blocks
          (serializeContent (exScriptGated 0).content)⟩]) := by decide
  have hb := approval_gating.2.1 exScriptGated exExec ["send_email"] true []
    (PendingApproval.mk "send_email" "argsB" "id2"
      [⟨Role.assistant, Content.blocks
        (serializeContent (exScriptGated 0).content)⟩]) hpend
  refine ⟨?_, ⟨hb.1, hb.2.1, hb.2.2⟩, ?_⟩
  · exact approval_gating.1 exScriptGated exExec ["send_email"] true []
      "read_email" "argsA" (by decide)
  · exact approval_gating.2.2 exScriptGated exExec ["send_email"] true 14 0
      [] 0 0 0 [("id1", "read_email", "argsA")] "id2" "send_email" "argsB"
      [("id3", "read_email", "argsC")] (by decide) (by decide) (by decide)
      (by decide) (by decide)

end SPB
